import Mathlib

/-!
Shallow embedding of the leveldb-viewer terminal browser (main.go): the
case-insensitive key filter, the seek-based pagination engine
(`loadInitialKeys`, `loadNextPage`), the binary-safe value renderer
(`formatValue` with JSON pretty-printing and mixed-content rendering), and
the single-entry export (`dumpCurrentKey`).

Keys are modelled as lists of Unicode code points (`List Char`): Go's
`strings.ToLower`, `strings.Contains` and `strings.Map` operate on runes,
and lexicographic code-point order coincides with the store's bytewise
order on valid UTF-8 keys. Values are modelled as byte lists (`List Nat`,
each entry < 256), since the renderer decodes UTF-8 byte-by-byte.
-/

/-- Keys as sequences of Unicode code points. -/
abbrev Key := List Char

/-- Raw values as byte sequences. -/
abbrev ByteSeq := List Nat

/-- Models `strings.HasPrefix`-style check used by `strings.Contains`:
does `s` begin with `needle`? -/
def strStartsWith : List Char → List Char → Bool
  | _, [] => true
  | [], _ :: _ => false
  | a :: as, b :: bs => a == b && strStartsWith as bs

/-- Models Go `strings.Contains s needle`: `needle` occurs as a contiguous
run somewhere in `s` (the empty needle always occurs). -/
def strContains (s needle : List Char) : Bool :=
  if strStartsWith s needle then true
  else
    match s with
    | [] => false
    | _ :: t => strContains t needle

/-- Models the per-key filter check in `loadInitialKeys` / `loadNextPage`:
`currentPrefix == "" || strings.Contains(strings.ToLower(keyStr), searchLower)`
where `searchLower = strings.ToLower(currentPrefix)`. `Char.toLower` models
`strings.ToLower` (exact on the ASCII range the scenarios use). -/
def matchesFilter (spec key : Key) : Bool :=
  spec.isEmpty || strContains (key.map Char.toLower) (spec.map Char.toLower)

/-- The store's key order: lexicographic comparison, modelling goleveldb's
default bytewise comparator (code-point order equals byte order on valid
UTF-8). -/
def ltB : Key → Key → Bool
  | _, [] => false
  | [], _ :: _ => true
  | a :: as, b :: bs => if a < b then true else if b < a then false else ltB as bs

/-- A snapshot of the store's iterator data: the keys it yields in order,
plus what its error channel (`iter.Error()`) reports at the end of a scan. -/
structure DbIter where
  keys : List Key
  iterError : Option String
deriving DecidableEq

/-- The slice of the program's global session state touched by the pager:
`displayedKeys`, `hasMoreKeys` and the status-bar message that `setStatus`
would have written during the last scan (`none` = `setStatus` not called). -/
structure PagerState where
  displayedKeys : List Key
  hasMoreKeys : Bool
  statusMessage : Option String
deriving DecidableEq

/-- The collection loop of `loadInitialKeys`: walk the iterator, append each
key passing the filter, and break as soon as the page reaches `pageSize`
entries. Returns the collected page and the part of the store that the
iterator has not stepped onto yet (so `iter.Next()` afterwards succeeds
exactly when that remainder is nonempty). -/
def loadInitialScan (spec : Key) (pageSize : Nat) (acc : List Key) :
    List Key → List Key × List Key
  | [] => (acc, [])
  | k :: rest =>
    if matchesFilter spec k then
      if pageSize ≤ (acc ++ [k]).length then (acc ++ [k], rest)
      else loadInitialScan spec pageSize (acc ++ [k]) rest
    else loadInitialScan spec pageSize acc rest

/-- Models `loadInitialKeys`: reset the page, scan from the smallest key,
set `hasMoreKeys = iter.Next()` after the loop, and surface an iterator
error (if any) through `setStatus("[red]Error: ...")`. -/
def loadInitialKeys (spec : Key) (pageSize : Nat) (it : DbIter) : PagerState :=
  let s := loadInitialScan spec pageSize [] it.keys
  { displayedKeys := s.1
    hasMoreKeys := !s.2.isEmpty
    statusMessage := it.iterError.map (fun e => "[red]Error: " ++ e) }

/-- Models goleveldb's `iter.Seek(key)`: position at the first key that is
greater than or equal to `lastKey`; the remaining list is empty exactly
when `Seek` returns false. -/
def seekTo (lastKey : Key) (keys : List Key) : List Key :=
  keys.dropWhile (fun k => ltB k lastKey)

/-- The collection loop of `loadNextPage`:
`for ; iter.Valid() && count < pageSize; iter.Next()`. Returns the newly
collected keys, the final `hasMoreKeys = iter.Valid()`, and the final
`count`. -/
def loadNextScan (spec : Key) (pageSize : Nat) (count : Nat) :
    List Key → List Key × Bool × Nat
  | [] => ([], false, count)
  | k :: rest =>
    if pageSize ≤ count then ([], true, count)
    else if matchesFilter spec k then
      let r := loadNextScan spec pageSize (count + 1) rest
      (k :: r.1, r.2.1, r.2.2)
    else loadNextScan spec pageSize count rest

/-- Models `loadNextPage`: no-op returning false when `hasMoreKeys` is
false or the page is empty; otherwise seek to the last displayed key,
step once past it, collect up to `pageSize` further matches, recompute
`hasMoreKeys`, and return whether `count > 0`. It performs no
`iter.Error()` check (faithful to the source), so `statusMessage` is
left untouched. -/
def loadNextPage (spec : Key) (pageSize : Nat) (it : DbIter) (st : PagerState) :
    PagerState × Bool :=
  if !st.hasMoreKeys || st.displayedKeys.isEmpty then (st, false)
  else
    let lastKey := st.displayedKeys.getLastD []
    match seekTo lastKey it.keys with
    | [] => (st, false)
    | _ :: rest =>
      let r := loadNextScan spec pageSize 0 rest
      ({ st with displayedKeys := st.displayedKeys ++ r.1, hasMoreKeys := r.2.1 },
        r.2.2 != 0)

/-- Iterate `loadNextPage` (a session's successive scroll-past-end
extends) starting from a given pager state. -/
def extendTimes (spec : Key) (pageSize : Nat) (it : DbIter) (st : PagerState) :
    Nat → PagerState
  | 0 => st
  | n + 1 => (loadNextPage spec pageSize it (extendTimes spec pageSize it st n)).1

/-- Declarative residue of a scan: the part of the store strictly after the
`m`-th key passing `f` (everything, from the scan's viewpoint, that the
iterator has not stepped onto when the page fills), or `[]` when fewer
than `m` keys pass. Used to characterise both collection loops. -/
def restAfter (f : Key → Bool) (m : Nat) : List Key → List Key
  | [] => []
  | k :: rest =>
    if f k then
      if m ≤ 1 then rest else restAfter f (m - 1) rest
    else restAfter f m rest

/-- The default page size configured in the source (`pageSize = 100`). -/
def pageSizeDefault : Nat := 100

/-- Models `utf8.DecodeRune`: decode the first code point of a byte
sequence, returning the rune and the number of bytes consumed. Every
invalid or impossibly short encoding yields `(0xFFFD, 1)` (`RuneError`
with size 1), and the empty input yields `(0xFFFD, 0)`, exactly as in
Go's unicode/utf8 package. -/
def decodeRune : ByteSeq → Nat × Nat
  | [] => (0xFFFD, 0)
  | b0 :: rest =>
    if b0 < 0x80 then (b0, 1)
    else if b0 < 0xC2 then (0xFFFD, 1)
    else if b0 < 0xE0 then
      match rest with
      | b1 :: _ =>
        if 0x80 ≤ b1 && b1 ≤ 0xBF then ((b0 - 0xC0) * 64 + (b1 - 0x80), 2)
        else (0xFFFD, 1)
      | [] => (0xFFFD, 1)
    else if b0 < 0xF0 then
      match rest with
      | b1 :: b2 :: _ =>
        let lo := if b0 == 0xE0 then 0xA0 else 0x80
        let hi := if b0 == 0xED then 0x9F else 0xBF
        if lo ≤ b1 && b1 ≤ hi && 0x80 ≤ b2 && b2 ≤ 0xBF then
          ((b0 - 0xE0) * 4096 + (b1 - 0x80) * 64 + (b2 - 0x80), 3)
        else (0xFFFD, 1)
      | _ => (0xFFFD, 1)
    else if b0 < 0xF5 then
      match rest with
      | b1 :: b2 :: b3 :: _ =>
        let lo := if b0 == 0xF0 then 0x90 else 0x80
        let hi := if b0 == 0xF4 then 0x8F else 0xBF
        if lo ≤ b1 && b1 ≤ hi && 0x80 ≤ b2 && b2 ≤ 0xBF && 0x80 ≤ b3 && b3 ≤ 0xBF then
          ((b0 - 0xF0) * 262144 + (b1 - 0x80) * 4096 + (b2 - 0x80) * 64 + (b3 - 0x80), 4)
        else (0xFFFD, 1)
      | _ => (0xFFFD, 1)
    else (0xFFFD, 1)

/-- Models Go's `unicode.IsControl`: true on the Latin-1 code points whose
property table carries the control bit (C0 controls, DEL, C1 controls and
the soft hyphen), false above Latin-1. -/
def unicodeIsControl (r : Nat) : Bool :=
  r < 0x20 || r == 0x7F || (0x80 ≤ r && r ≤ 0x9F) || r == 0xAD

/-- The standard base64 alphabet, digit by digit. -/
def b64Char (n : Nat) : Char :=
  if n < 26 then Char.ofNat (65 + n)
  else if n < 52 then Char.ofNat (97 + (n - 26))
  else if n < 62 then Char.ofNat (48 + (n - 52))
  else if n == 62 then '+'
  else '/'

/-- Models `base64.RawStdEncoding.EncodeToString`: standard alphabet,
no padding. -/
def base64RawStd : ByteSeq → List Char
  | [] => []
  | [b0] => [b64Char (b0 / 4), b64Char (b0 % 4 * 16)]
  | [b0, b1] => [b64Char (b0 / 4), b64Char (b0 % 4 * 16 + b1 / 16), b64Char (b1 % 16 * 4)]
  | b0 :: b1 :: b2 :: rest =>
    b64Char (b0 / 4) :: b64Char (b0 % 4 * 16 + b1 / 16) ::
      b64Char (b1 % 16 * 4 + b2 / 64) :: b64Char (b2 % 64) :: base64RawStd rest

/-- Models the `flushBinary` closure of `mixedContentDisplay`: a pending
binary run becomes a bracketed base64 marker; an empty run emits nothing. -/
def flushBinary (buf : ByteSeq) : List Char :=
  if buf.isEmpty then [] else "[b64:".toList ++ base64RawStd buf ++ [']']

/-- Size of the first decoded rune is at least one byte on nonempty
input. -/
theorem decodeRune_size_pos (b : Nat) (rest : ByteSeq) :
    1 ≤ (decodeRune (b :: rest)).2 := by
  simp only [decodeRune]
  repeat' split
  all_goals simp

/-- The scanning loop of `mixedContentDisplay`: invalid bytes and control
runes accumulate in the binary buffer; a printable rune flushes the buffer
as a `[b64:...]` marker and is written verbatim. -/
def mixedContentAux (buf : ByteSeq) (value : ByteSeq) : List Char :=
  match value with
  | [] => flushBinary buf
  | b :: rest =>
    let rs := decodeRune (b :: rest)
    if rs.1 == 0xFFFD && rs.2 == 1 then
      mixedContentAux (buf ++ [b]) rest
    else if unicodeIsControl rs.1 then
      mixedContentAux (buf ++ (b :: rest).take rs.2) ((b :: rest).drop rs.2)
    else
      flushBinary buf ++ [Char.ofNat rs.1] ++ mixedContentAux [] ((b :: rest).drop rs.2)
termination_by value.length
decreasing_by
  all_goals simp only [List.length_drop, List.length_cons]
  · omega
  · have h := decodeRune_size_pos ‹_› ‹_›
    omega
  · have h := decodeRune_size_pos ‹_› ‹_›
    omega

/-- Models `mixedContentDisplay`. -/
def mixedContentDisplay (value : ByteSeq) : List Char :=
  mixedContentAux [] value

/-- Models the whitespace class of encoding/json's scanner: space, tab,
newline, carriage return. -/
def isJsonSpace (b : Nat) : Bool :=
  b == 0x20 || b == 0x09 || b == 0x0A || b == 0x0D

/-- Drop inter-token whitespace, as the JSON scanner does outside
strings. -/
def skipJsonSpace (s : ByteSeq) : ByteSeq :=
  s.dropWhile isJsonSpace

/-- ASCII decimal digit. -/
def isDigitB (b : Nat) : Bool :=
  0x30 ≤ b && b ≤ 0x39

/-- ASCII hexadecimal digit (for `\uXXXX` escapes). -/
def isHexB (b : Nat) : Bool :=
  isDigitB b || (0x41 ≤ b && b ≤ 0x46) || (0x61 ≤ b && b ≤ 0x66)

/-- Models the JSON scanner inside a string literal, after the opening
quote: any byte at or above 0x20 except quote and backslash continues the
string; the listed escapes (and `\u` with four hex digits) are allowed;
returns the input after the closing quote. -/
def jsonStringRest : ByteSeq → Option ByteSeq
  | [] => none
  | b :: rest =>
    if b == 0x22 then some rest
    else if b == 0x5C then
      match rest with
      | [] => none
      | e :: rest2 =>
        if e == 0x22 || e == 0x5C || e == 0x2F || e == 0x62 || e == 0x66 ||
            e == 0x6E || e == 0x72 || e == 0x74 then jsonStringRest rest2
        else if e == 0x75 then
          match rest2 with
          | h1 :: h2 :: h3 :: h4 :: rest3 =>
            if isHexB h1 && isHexB h2 && isHexB h3 && isHexB h4 then
              jsonStringRest rest3
            else none
          | _ => none
        else none
    else if b < 0x20 then none
    else jsonStringRest rest

/-- Models the JSON number grammar accepted by the scanner:
`-? (0 | [1-9][0-9]*) (. [0-9]+)? ([eE] [+-]? [0-9]+)?`, starting at the
number's first byte. -/
def jsonNumberRest (s : ByteSeq) : Option ByteSeq :=
  let s1 := match s with
    | b :: r => if b == 0x2D then r else s
    | [] => s
  match s1 with
  | [] => none
  | b :: r =>
    if b == 0x30 then some r
    else if 0x31 ≤ b && b ≤ 0x39 then some (r.dropWhile isDigitB)
    else none
  |>.bind fun s2 =>
    match s2 with
    | b :: r =>
      if b == 0x2E then
        match r with
        | d :: r2 => if isDigitB d then some ((d :: r2).dropWhile isDigitB) else none
        | [] => none
      else some s2
    | [] => some s2
  |>.bind fun s3 =>
    match s3 with
    | b :: r =>
      if b == 0x65 || b == 0x45 then
        let r2 := match r with
          | c :: r1 => if c == 0x2B || c == 0x2D then r1 else r
          | [] => r
        match r2 with
        | d :: r3 => if isDigitB d then some ((d :: r3).dropWhile isDigitB) else none
        | [] => none
      else some s3
    | [] => some s3

/-- Parsing modes of the JSON value scanner: a whole value, an object body
after `{`, a mandatory member after `,`, the separator position inside an
object, an array body after `[`, and the separator position inside an
array. -/
inductive JMode
  | val | objBody | objMember | objNext | arrBody | arrNext
deriving DecidableEq

/-- One-function recursive-descent model of encoding/json's validity
scanner. The fuel decreases on every recursive call; since at least one
byte is consumed before every descent, `input.length + 1` fuel always
suffices, so the fuel never changes the accepted language. -/
def jsonStep (fuel : Nat) (m : JMode) (s : ByteSeq) : Option ByteSeq :=
  match fuel with
  | 0 => none
  | fuel + 1 =>
    match m with
    | .val =>
      match skipJsonSpace s with
      | [] => none
      | b :: rest =>
        if b == 0x7B then jsonStep fuel .objBody rest
        else if b == 0x5B then jsonStep fuel .arrBody rest
        else if b == 0x22 then jsonStringRest rest
        else if b == 0x74 then
          match rest with
          | r1 :: u :: e :: r => if r1 == 0x72 && u == 0x75 && e == 0x65 then some r else none
          | _ => none
        else if b == 0x66 then
          match rest with
          | a :: l :: s2 :: e :: r =>
            if a == 0x61 && l == 0x6C && s2 == 0x73 && e == 0x65 then some r else none
          | _ => none
        else if b == 0x6E then
          match rest with
          | u :: l1 :: l2 :: r => if u == 0x75 && l1 == 0x6C && l2 == 0x6C then some r else none
          | _ => none
        else if b == 0x2D || isDigitB b then jsonNumberRest (b :: rest)
        else none
    | .objBody =>
      match skipJsonSpace s with
      | [] => none
      | b :: rest =>
        if b == 0x7D then some rest
        else if b == 0x22 then
          (jsonStringRest rest).bind fun afterName =>
            match skipJsonSpace afterName with
            | c :: afterColon =>
              if c == 0x3A then
                (jsonStep fuel .val afterColon).bind fun afterVal =>
                  jsonStep fuel .objNext afterVal
              else none
            | [] => none
        else none
    | .objMember =>
      match skipJsonSpace s with
      | [] => none
      | b :: rest =>
        if b == 0x22 then
          (jsonStringRest rest).bind fun afterName =>
            match skipJsonSpace afterName with
            | c :: afterColon =>
              if c == 0x3A then
                (jsonStep fuel .val afterColon).bind fun afterVal =>
                  jsonStep fuel .objNext afterVal
              else none
            | [] => none
        else none
    | .objNext =>
      match skipJsonSpace s with
      | [] => none
      | b :: rest =>
        if b == 0x7D then some rest
        else if b == 0x2C then jsonStep fuel .objMember rest
        else none
    | .arrBody =>
      match skipJsonSpace s with
      | [] => none
      | b :: _ =>
        if b == 0x5D then some (skipJsonSpace s).tail
        else
          (jsonStep fuel .val s).bind fun afterVal =>
            jsonStep fuel .arrNext afterVal
    | .arrNext =>
      match skipJsonSpace s with
      | [] => none
      | b :: rest =>
        if b == 0x5D then some rest
        else if b == 0x2C then
          (jsonStep fuel .val rest).bind fun afterVal =>
            jsonStep fuel .arrNext afterVal
        else none

/-- Models `json.Valid`: one JSON value, possibly surrounded by
whitespace, and nothing else. -/
def jsonValid (value : ByteSeq) : Bool :=
  match jsonStep (value.length + 1) .val value with
  | some rest => (skipJsonSpace rest).isEmpty
  | none => false

/-- State of the indenting copier of `json.Indent` (encoding/json's
`appendIndent` loop): output so far, nesting depth, the pending-indent
flag set after `{`/`[`, and whether the scanner is inside a string
(with a pending backslash escape). -/
structure IndentSt where
  out : List Char
  depth : Nat
  needIndent : Bool
  inStr : Bool
  esc : Bool
deriving DecidableEq

/-- One newline plus `depth` copies of the two-space indent unit (the
source calls `json.Indent(&b, value, "", "  ")`). -/
def indentNewline (depth : Nat) : List Char :=
  '\n' :: List.replicate (2 * depth) ' '

/-- One byte of `json.Indent`'s copying loop: bytes inside strings are
copied verbatim, inter-token whitespace is dropped, `{`/`[` arm the
pending indent, `,` breaks the line, `:` becomes colon-space, and `}`/`]`
either cancel an empty-container indent or dedent onto a fresh line. -/
def jsonIndentStep (st : IndentSt) (c : Nat) : IndentSt :=
  if st.inStr then
    let st2 := { st with out := st.out ++ [Char.ofNat c] }
    if st.esc then { st2 with esc := false }
    else if c == 0x5C then { st2 with esc := true }
    else if c == 0x22 then { st2 with inStr := false }
    else st2
  else if isJsonSpace c then st
  else
    let st1 :=
      if st.needIndent && c != 0x7D && c != 0x5D then
        { st with
          needIndent := false
          depth := st.depth + 1
          out := st.out ++ indentNewline (st.depth + 1) }
      else st
    if c == 0x7B || c == 0x5B then
      { st1 with needIndent := true, out := st1.out ++ [Char.ofNat c] }
    else if c == 0x2C then
      { st1 with out := st1.out ++ [Char.ofNat c] ++ indentNewline st1.depth }
    else if c == 0x3A then
      { st1 with out := st1.out ++ [':', ' '] }
    else if c == 0x7D || c == 0x5D then
      if st1.needIndent then
        { st1 with needIndent := false, out := st1.out ++ [Char.ofNat c] }
      else
        { st1 with
          depth := st1.depth - 1
          out := st1.out ++ indentNewline (st1.depth - 1) ++ [Char.ofNat c] }
    else if c == 0x22 then
      { st1 with inStr := true, esc := false, out := st1.out ++ [Char.ofNat c] }
    else
      { st1 with out := st1.out ++ [Char.ofNat c] }

/-- Models `json.Indent(&prettyJSON, value, "", "  ")` on input already
known valid: fold the copying loop over the bytes. Output is modelled at
byte granularity as characters (exact on ASCII content). -/
def jsonIndent (value : ByteSeq) : List Char :=
  (value.foldl jsonIndentStep ⟨[], 0, false, false, false⟩).out

/-- Models `formatValue`: pretty-print when `json.Valid` holds (the
`err == nil` guard on `json.Indent` cannot fire on valid input),
otherwise fall back to mixed-content rendering. -/
def formatValue (value : ByteSeq) : List Char :=
  if jsonValid value then jsonIndent value else mixedContentDisplay value

/-- Models `db.Get` over an association-list snapshot of the store:
the stored value, or goleveldb's not-found error. -/
def dbGet (db : List (Key × ByteSeq)) (k : Key) : Except String ByteSeq :=
  match db.find? (fun e => e.1 == k) with
  | some e => Except.ok e.2
  | none => Except.error "leveldb: not found"

/-- Models `showKeyValue`: the text written to the value view, including
the special `(empty)` marker for zero-length values. -/
def showKeyValue (db : List (Key × ByteSeq)) (key : Key) : List Char :=
  match dbGet db key with
  | Except.error e => ("[red]Error: " ++ e).toList
  | Except.ok value =>
    if value.length == 0 then
      "[white]Key[::-]: ".toList ++ key ++ "\n\n[white]Value[::-]: (empty)".toList
    else
      "[white]Key[::-]: ".toList ++ key ++ "\n\n[white]Value[::-]: ".toList ++
        formatValue value

/-- Models the rune-mapping closure in `dumpCurrentKey`: runes below 0x20
and the nine forbidden filename characters `/ \ : * ? " < > |` (written
here by code point: 0x2F 0x5C 0x3A 0x2A 0x3F 0x22 0x3C 0x3E 0x7C) map to
an underscore; everything else is kept. -/
def sanitizeRune (r : Char) : Char :=
  if r.toNat < 32 || r.toNat == 0x2F || r.toNat == 0x5C || r.toNat == 0x3A ||
      r.toNat == 0x2A || r.toNat == 0x3F || r.toNat == 0x22 || r.toNat == 0x3C ||
      r.toNat == 0x3E || r.toNat == 0x7C then '_'
  else r

/-- Filesystem effects and status of one `dumpCurrentKey` invocation.
`written = some (path, content)` records the single `os.WriteFile`;
`dirCreated` records whether `os.MkdirAll("leveldb_dump", ...)` ran.
Filesystem calls themselves are modelled as succeeding. -/
structure DumpOutcome where
  statusMessage : String
  dirCreated : Bool
  written : Option (List Char × List Char)
deriving DecidableEq

/-- Models `dumpCurrentKey`: selection-range check, point lookup, then
directory creation and the write of `Key: <key>\n\nValue: <rendered>` to
`leveldb_dump/<sanitized key>.txt`. -/
def dumpCurrentKey (db : List (Key × ByteSeq)) (displayedKeys : List Key)
    (currentIndex : Int) : DumpOutcome :=
  if currentIndex < 0 || (displayedKeys.length : Int) ≤ currentIndex then
    { statusMessage := "[red]Invalid selection", dirCreated := false, written := none }
  else
    let key := displayedKeys.getD currentIndex.toNat []
    match dbGet db key with
    | Except.error e =>
      { statusMessage := "[red]Error: " ++ e, dirCreated := false, written := none }
    | Except.ok value =>
      let filename := key.map sanitizeRune
      let filePath := "leveldb_dump/".toList ++ filename ++ ".txt".toList
      let content := "Key: ".toList ++ key ++ "\n\nValue: ".toList ++ formatValue value
      { statusMessage := "[green]Dumped to " ++ filePath.asString,
        dirCreated := true,
        written := some (filePath, content) }

/-- ASCII bytes of a Lean string literal, for writing concrete byte-level
test inputs. -/
def strBytes (s : String) : ByteSeq :=
  s.toList.map Char.toNat

/-- Unfolding step of the mixed-content scan on empty input. -/
theorem mixedContentAux_nil (buf : ByteSeq) :
    mixedContentAux buf [] = flushBinary buf := by
  rw [mixedContentAux.eq_def]

/-- Unfolding step of the mixed-content scan on a nonempty input. -/
theorem mixedContentAux_cons (buf : ByteSeq) (b : Nat) (rest : ByteSeq) :
    mixedContentAux buf (b :: rest) =
      (if (decodeRune (b :: rest)).1 == 0xFFFD && (decodeRune (b :: rest)).2 == 1 then
        mixedContentAux (buf ++ [b]) rest
      else if unicodeIsControl (decodeRune (b :: rest)).1 then
        mixedContentAux (buf ++ (b :: rest).take (decodeRune (b :: rest)).2)
          ((b :: rest).drop (decodeRune (b :: rest)).2)
      else
        flushBinary buf ++ [Char.ofNat (decodeRune (b :: rest)).1] ++
          mixedContentAux [] ((b :: rest).drop (decodeRune (b :: rest)).2)) := by
  rw [mixedContentAux.eq_def]

/-- The store order is irreflexive. -/
theorem ltB_irrefl (a : Key) : ltB a a = false := by
  induction a with
  | nil => rfl
  | cons x xs ih => simp [ltB, ih]

/-- The store order is transitive. -/
theorem ltB_trans : ∀ {a b c : Key}, ltB a b = true → ltB b c = true → ltB a c = true := by
  intro a
  induction a with
  | nil =>
    intro b c hab hbc
    cases b with
    | nil => simp [ltB] at hab
    | cons y ys =>
      cases c with
      | nil => simp [ltB] at hbc
      | cons z zs => simp [ltB]
  | cons x xs ih =>
    intro b c hab hbc
    cases b with
    | nil => simp [ltB] at hab
    | cons y ys =>
      cases c with
      | nil => simp [ltB] at hbc
      | cons z zs =>
        simp only [ltB] at hab hbc ⊢
        rcases lt_trichotomy x y with hxy | hxy | hxy
        · rcases lt_trichotomy y z with hyz | hyz | hyz
          · simp [lt_trans hxy hyz]
          · subst hyz
            simp [hxy]
          · rw [if_neg (lt_asymm hyz), if_pos hyz] at hbc
            exact absurd hbc (by simp)
        · subst hxy
          rcases lt_trichotomy x z with hxz | hxz | hxz
          · simp [hxz]
          · subst hxz
            rw [if_neg (lt_irrefl x), if_neg (lt_irrefl x)] at hab hbc ⊢
            exact ih hab hbc
          · rw [if_neg (lt_asymm hxz), if_pos hxz] at hbc
            exact absurd hbc (by simp)
        · rw [if_neg (lt_asymm hxy), if_pos hxy] at hab
          exact absurd hab (by simp)

/-- The store order is asymmetric. -/
theorem ltB_asymm {a b : Key} (h : ltB a b = true) : ltB b a = false := by
  by_contra h2
  have h3 : ltB b a = true := by
    cases hba : ltB b a with
    | false => exact absurd hba h2
    | true => rfl
  have := ltB_trans h h3
  rw [ltB_irrefl] at this
  exact absurd this (by simp)

/-- The store order is total: two keys are equal or comparable. -/
theorem ltB_connex : ∀ (a b : Key), a = b ∨ ltB a b = true ∨ ltB b a = true := by
  intro a
  induction a with
  | nil =>
    intro b
    cases b with
    | nil => exact Or.inl rfl
    | cons y ys => exact Or.inr (Or.inl (by simp [ltB]))
  | cons x xs ih =>
    intro b
    cases b with
    | nil => exact Or.inr (Or.inr (by simp [ltB]))
    | cons y ys =>
      rcases lt_trichotomy x y with hxy | hxy | hxy
      · exact Or.inr (Or.inl (by simp [ltB, hxy]))
      · subst hxy
        rcases ih ys with h | h | h
        · exact Or.inl (by rw [h])
        · exact Or.inr (Or.inl (by simp [ltB, h]))
        · exact Or.inr (Or.inr (by simp [ltB, h]))
      · exact Or.inr (Or.inr (by simp [ltB, hxy]))

/-- Characterisation of the first-page collection loop: with `m` slots of
capacity left, it returns the accumulated page extended by the first `m`
filter matches, and leaves the iterator exactly past where it stopped. -/
theorem loadInitialScan_eq (spec : Key) :
    ∀ (keys : List Key) (m : Nat) (acc : List Key), 0 < m →
      loadInitialScan spec (acc.length + m) acc keys =
        (acc ++ (keys.filter (matchesFilter spec)).take m,
          restAfter (matchesFilter spec) m keys) := by
  intro keys
  induction keys with
  | nil =>
    intro m acc hm
    simp [loadInitialScan, restAfter]
  | cons k rest ih =>
    intro m acc hm
    by_cases hf : matchesFilter spec k = true
    · have hfilter : (k :: rest).filter (matchesFilter spec) =
          k :: rest.filter (matchesFilter spec) := List.filter_cons_of_pos hf
      rcases Nat.lt_or_ge 1 m with h1 | h1
      · have hcond : ¬(acc.length + m ≤ (acc ++ [k]).length) := by
          simp only [List.length_append, List.length_cons, List.length_nil]
          omega
        have step : loadInitialScan spec (acc.length + m) acc (k :: rest) =
            loadInitialScan spec (acc.length + m) (acc ++ [k]) rest := by
          simp only [loadInitialScan, if_pos hf, if_neg hcond]
        have harg : acc.length + m = (acc ++ [k]).length + (m - 1) := by
          simp only [List.length_append, List.length_cons, List.length_nil]
          omega
        rw [step, harg, ih (m - 1) (acc ++ [k]) (by omega)]
        rw [hfilter, List.take_cons (by omega : 0 < m)]
        have hrest : restAfter (matchesFilter spec) m (k :: rest) =
            restAfter (matchesFilter spec) (m - 1) rest := by
          simp only [restAfter, if_pos hf, if_neg (by omega : ¬ m ≤ 1)]
        rw [hrest]
        simp
      · have hm1 : m = 1 := by omega
        subst hm1
        have hcond : acc.length + 1 ≤ (acc ++ [k]).length := by simp
        have step : loadInitialScan spec (acc.length + 1) acc (k :: rest) =
            (acc ++ [k], rest) := by
          simp only [loadInitialScan, if_pos hf, if_pos hcond]
        rw [step, hfilter, List.take_cons (by omega : (0:Nat) < 1)]
        have hrest : restAfter (matchesFilter spec) 1 (k :: rest) = rest := by
          simp only [restAfter, if_pos hf, if_pos (by omega : (1:Nat) ≤ 1)]
        rw [hrest]
        simp
    · have hf2 : matchesFilter spec k = false := by
        cases h : matchesFilter spec k with
        | false => rfl
        | true => exact absurd h hf
      have hfilter : (k :: rest).filter (matchesFilter spec) =
          rest.filter (matchesFilter spec) := List.filter_cons_of_neg (by simp [hf2])
      have step : loadInitialScan spec (acc.length + m) acc (k :: rest) =
          loadInitialScan spec (acc.length + m) acc rest := by
        simp only [loadInitialScan, hf2]
        simp
      have hrest : restAfter (matchesFilter spec) m (k :: rest) =
          restAfter (matchesFilter spec) m rest := by
        simp only [restAfter, hf2]
        simp
      rw [step, hfilter, hrest, ih m acc hm]

/-- Characterisation of the first-page load: the page is the first
`pageSize` filter matches of the store, and `hasMoreKeys` records whether
the iterator could step once more past the stop position. -/
theorem loadInitialKeys_eq (spec : Key) (pageSize : Nat) (it : DbIter)
    (hps : 0 < pageSize) :
    loadInitialKeys spec pageSize it =
      { displayedKeys := (it.keys.filter (matchesFilter spec)).take pageSize
        hasMoreKeys := !(restAfter (matchesFilter spec) pageSize it.keys).isEmpty
        statusMessage := it.iterError.map (fun e => "[red]Error: " ++ e) } := by
  have h := loadInitialScan_eq spec it.keys pageSize [] hps
  simp only [List.length_nil, Nat.zero_add, List.nil_append] at h
  simp [loadInitialKeys, h]

/-- The extend collection loop when the page is already full: it collects
nothing, and `hasMoreKeys` is just iterator validity at that point. -/
theorem loadNextScan_full (spec : Key) (pageSize count : Nat)
    (h : pageSize ≤ count) :
    ∀ keys, loadNextScan spec pageSize count keys = ([], !keys.isEmpty, count) := by
  intro keys
  cases keys with
  | nil => simp [loadNextScan]
  | cons k rest => simp [loadNextScan, h]

/-- Characterisation of the extend collection loop with remaining capacity:
it collects the next `pageSize - count` filter matches, reports whether the
iterator survives past the stop position, and counts what it collected. -/
theorem loadNextScan_eq (spec : Key) (pageSize : Nat) :
    ∀ (keys : List Key) (count : Nat), count < pageSize →
      loadNextScan spec pageSize count keys =
        ((keys.filter (matchesFilter spec)).take (pageSize - count),
          !(restAfter (matchesFilter spec) (pageSize - count) keys).isEmpty,
          count + ((keys.filter (matchesFilter spec)).take (pageSize - count)).length) := by
  intro keys
  induction keys with
  | nil =>
    intro count hc
    simp [loadNextScan, restAfter]
  | cons k rest ih =>
    intro count hc
    have hnc : ¬ pageSize ≤ count := by omega
    by_cases hf : matchesFilter spec k = true
    · have hfilter : (k :: rest).filter (matchesFilter spec) =
          k :: rest.filter (matchesFilter spec) := List.filter_cons_of_pos hf
      rcases Nat.lt_or_ge (count + 1) pageSize with h1 | h1
      · have step : loadNextScan spec pageSize count (k :: rest) =
            (k :: (loadNextScan spec pageSize (count + 1) rest).1,
              (loadNextScan spec pageSize (count + 1) rest).2.1,
              (loadNextScan spec pageSize (count + 1) rest).2.2) := by
          simp only [loadNextScan, if_neg hnc, if_pos hf]
        rw [step, ih (count + 1) h1, hfilter]
        have he : pageSize - count = (pageSize - (count + 1)) + 1 := by omega
        rw [he, List.take_cons (by omega : 0 < pageSize - (count + 1) + 1)]
        have hrest : restAfter (matchesFilter spec) (pageSize - (count + 1) + 1)
            (k :: rest) = restAfter (matchesFilter spec) (pageSize - (count + 1)) rest := by
          simp only [restAfter, if_pos hf,
            if_neg (by omega : ¬ pageSize - (count + 1) + 1 ≤ 1), Nat.add_sub_cancel]
        rw [hrest]
        simp only [Nat.add_sub_cancel, List.length_cons, Prod.mk.injEq]
        refine ⟨by simp, by simp, by omega⟩
      · have hps1 : pageSize = count + 1 := by omega
        have step : loadNextScan spec pageSize count (k :: rest) =
            (k :: (loadNextScan spec pageSize (count + 1) rest).1,
              (loadNextScan spec pageSize (count + 1) rest).2.1,
              (loadNextScan spec pageSize (count + 1) rest).2.2) := by
          simp only [loadNextScan, if_neg hnc, if_pos hf]
        rw [step, loadNextScan_full spec pageSize (count + 1) (by omega) rest, hfilter]
        have he : pageSize - count = 1 := by omega
        rw [he, List.take_cons (by omega : (0:Nat) < 1)]
        have hrest : restAfter (matchesFilter spec) 1 (k :: rest) = rest := by
          simp only [restAfter, if_pos hf, if_pos (by omega : (1:Nat) ≤ 1)]
        rw [hrest]
        simp
    · have hf2 : matchesFilter spec k = false := by
        cases h : matchesFilter spec k with
        | false => rfl
        | true => exact absurd h hf
      have hfilter : (k :: rest).filter (matchesFilter spec) =
          rest.filter (matchesFilter spec) := List.filter_cons_of_neg (by simp [hf2])
      have step : loadNextScan spec pageSize count (k :: rest) =
          loadNextScan spec pageSize count rest := by
        simp only [loadNextScan, if_neg hnc, hf2]
        simp
      have hrest : restAfter (matchesFilter spec) (pageSize - count) (k :: rest) =
          restAfter (matchesFilter spec) (pageSize - count) rest := by
        simp only [restAfter, hf2]
        simp
      rw [step, hfilter, hrest, ih count hc]

/-- A scan that never reaches its `m`-th match leaves no residue. -/
theorem restAfter_eq_nil_of_length_lt (f : Key → Bool) :
    ∀ (keys : List Key) (m : Nat), (keys.filter f).length < m →
      restAfter f m keys = [] := by
  intro keys
  induction keys with
  | nil => intro m _; rfl
  | cons k rest ih =>
    intro m hlen
    by_cases hf : f k = true
    · rw [List.filter_cons_of_pos hf, List.length_cons] at hlen
      have hm : ¬ m ≤ 1 := by omega
      simp only [restAfter, if_pos hf, if_neg hm]
      exact ih (m - 1) (by omega)
    · have hf2 : f k = false := by
        cases h : f k with
        | false => rfl
        | true => exact absurd h hf
      rw [List.filter_cons_of_neg (by simp [hf2])] at hlen
      simp only [restAfter, hf2]
      simpa using ih m hlen

/-- An empty residue means the store holds at most `m` filter matches. -/
theorem length_le_of_restAfter_eq_nil (f : Key → Bool) :
    ∀ (keys : List Key) (m : Nat), 0 < m → restAfter f m keys = [] →
      (keys.filter f).length ≤ m := by
  intro keys
  induction keys with
  | nil => intro m _ _; simp
  | cons k rest ih =>
    intro m hm hnil
    by_cases hf : f k = true
    · rw [List.filter_cons_of_pos hf, List.length_cons]
      rcases Nat.lt_or_ge 1 m with h1 | h1
      · simp only [restAfter, if_pos hf, if_neg (by omega : ¬ m ≤ 1)] at hnil
        have := ih (m - 1) (by omega) hnil
        omega
      · have hm1 : m = 1 := by omega
        subst hm1
        simp only [restAfter, if_pos hf, if_pos (by omega : (1:Nat) ≤ 1)] at hnil
        subst hnil
        simp
    · have hf2 : f k = false := by
        cases h : f k with
        | false => rfl
        | true => exact absurd h hf
      rw [List.filter_cons_of_neg (by simp [hf2])]
      simp only [restAfter, hf2] at hnil
      simp only [if_neg (by simp : ¬ (false = true))] at hnil
      exact ih m hm hnil

/-- Helper: `dropWhile` over a list made of an all-true part, a false
element and a tail stops exactly at the false element. -/
theorem dropWhile_append_all (p : Key → Bool) (l1 : List Key) (h : Key)
    (l2 : List Key) (hall : ∀ x ∈ l1, p x = true) (hh : p h = false) :
    (l1 ++ h :: l2).dropWhile p = h :: l2 := by
  induction l1 with
  | nil => simp [List.dropWhile_cons, hh]
  | cons a t ih =>
    have ha := hall a (by simp)
    simp only [List.cons_append, List.dropWhile_cons, ha, if_pos]
    exact ih (fun x hx => hall x (by simp [hx]))

/-- On a sorted list, dropping everything below the `i`-th element drops
exactly the first `i` elements. -/
theorem sorted_dropWhile_getElem (keys : List Key)
    (hs : keys.Pairwise (fun a b => ltB a b = true)) (i : Nat) (hi : i < keys.length) :
    keys.dropWhile (fun x => ltB x (keys[i])) = keys.drop i := by
  obtain ⟨lk, hlk⟩ : ∃ lk, keys[i] = lk := ⟨_, rfl⟩
  rw [hlk]
  have hdecomp : keys = keys.take i ++ lk :: keys.drop (i + 1) := by
    conv_lhs => rw [← List.take_append_drop i keys]
    rw [List.drop_eq_getElem_cons hi, hlk]
  have hall : ∀ x ∈ keys.take i, ltB x lk = true := by
    intro x hx
    rcases List.mem_iff_getElem.mp hx with ⟨j, hj, hxj⟩
    have hj2 : j < i := by
      have hlen := hj
      simp only [List.length_take] at hlen
      omega
    have hjk : j < keys.length := by omega
    have hx2 : keys[j] = x := by
      rw [← hxj, List.getElem_take]
    rw [← hx2, ← hlk]
    exact (List.pairwise_iff_getElem.mp hs) j i hjk hi hj2
  have hh : ltB lk lk = false := ltB_irrefl _
  conv_lhs => rw [hdecomp]
  rw [dropWhile_append_all _ _ _ _ hall hh, List.drop_eq_getElem_cons hi, hlk]

/-- On a sorted list, `dropWhile (· < lk)` is `filter (¬ · < lk)`: the
elements below `lk` form exactly the dropped head. -/
theorem sorted_dropWhile_eq_filter (lk : Key) (keys : List Key)
    (hs : keys.Pairwise (fun a b => ltB a b = true)) :
    keys.dropWhile (fun x => ltB x lk) = keys.filter (fun x => !ltB x lk) := by
  induction keys with
  | nil => rfl
  | cons h t ih =>
    rcases List.pairwise_cons.mp hs with ⟨hhead, htail⟩
    by_cases hh : ltB h lk = true
    · rw [List.dropWhile_cons_of_pos (by simp [hh]), ih htail,
        List.filter_cons_of_neg (by simp [hh])]
    · have hh2 : ltB h lk = false := by
        cases hc : ltB h lk with
        | false => rfl
        | true => exact absurd hc hh
      have hall : ∀ x ∈ t, (!ltB x lk) = true := by
        intro x hx
        cases hxl : ltB x lk with
        | false => rfl
        | true =>
          have := ltB_trans (hhead x hx) hxl
          rw [this] at hh2
          exact absurd hh2 (by simp)
      rw [List.dropWhile_cons_of_neg (by simp [hh2]),
        List.filter_cons_of_pos (by simp [hh2]), List.filter_eq_self.mpr hall]

/-- Taking a list to the length of one of its takes changes nothing. -/
theorem take_length_take (l : List Key) (n : Nat) :
    l.take ((l.take n).length) = l.take n := by
  rw [List.take_eq_take]
  simp only [List.length_take]
  omega

/-- The last element of a nonempty `take` is the element at its end. -/
theorem getLastD_take (F : List Key) (n : Nat) (hn : 0 < n) (hle : n ≤ F.length) :
    (F.take n).getLastD [] = F[n - 1] := by
  have hlen : (F.take n).length = n := by
    simp only [List.length_take]
    omega
  rw [List.getLastD_eq_getLast?, List.getLast?_eq_getElem?, hlen,
    List.getElem?_eq_getElem (by rw [hlen]; omega)]
  simp [List.getElem_take]

/-- The early-return branch of `loadNextPage`. -/
theorem loadNextPage_noop (spec : Key) (pageSize : Nat) (it : DbIter)
    (st : PagerState) (h : st.hasMoreKeys = false ∨ st.displayedKeys = []) :
    loadNextPage spec pageSize it st = (st, false) := by
  rcases h with h | h
  · simp [loadNextPage, h]
  · simp [loadNextPage, h]

/-- The scanning branch of `loadNextPage`, given where the seek lands. -/
theorem loadNextPage_run (spec : Key) (pageSize : Nat) (it : DbIter)
    (st : PagerState) (h1 : st.hasMoreKeys = true) (h2 : st.displayedKeys ≠ [])
    (lk : Key) (rest : List Key)
    (hseek : seekTo (st.displayedKeys.getLastD []) it.keys = lk :: rest) :
    loadNextPage spec pageSize it st =
      ({ st with
          displayedKeys := st.displayedKeys ++ (loadNextScan spec pageSize 0 rest).1
          hasMoreKeys := (loadNextScan spec pageSize 0 rest).2.1 },
        (loadNextScan spec pageSize 0 rest).2.2 != 0) := by
  have hemp : st.displayedKeys.isEmpty = false := by
    cases hd : st.displayedKeys with
    | nil => exact absurd hd h2
    | cons a l => simp
  have hseek2 : seekTo (st.displayedKeys.getLast?.getD []) it.keys = lk :: rest := by
    rw [← List.getLastD_eq_getLast?]
    exact hseek
  simp [loadNextPage, h1, hemp, hseek, hseek2]

/-- In a sorted list, every element of `take m` equals the `(m-1)`-th
element or comes strictly before it. -/
theorem mem_take_eq_or_lt (F : List Key)
    (hs : F.Pairwise (fun a b => ltB a b = true)) (m : Nat) (hm : 0 < m)
    (hle : m ≤ F.length) :
    ∀ d ∈ F.take m, d = F[m - 1] ∨ ltB d (F[m - 1]) = true := by
  intro d hd
  rcases List.mem_iff_getElem.mp hd with ⟨j, hj, hje⟩
  have hjm : j < m := by
    have := hj
    simp only [List.length_take] at this
    omega
  have hjF : j < F.length := by omega
  have hdj : F[j] = d := by rw [← hje, List.getElem_take]
  rcases Nat.lt_or_ge j (m - 1) with hlt | hge
  · right
    rw [← hdj]
    exact (List.pairwise_iff_getElem.mp hs) j (m - 1) hjF (by omega) hlt
  · left
    have : j = m - 1 := by omega
    subst this
    rw [← hdj]


/-- On a sorted store, the matches among the keys strictly after the
occurrence of the page's last match (the `(n-1)`-th filtered key) are
exactly the filtered keys from position `n` on. -/
theorem seek_tail_filter (spec : Key) (keys : List Key)
    (hs : keys.Pairwise (fun a b => ltB a b = true)) (lk : Key) (n : Nat)
    (hnpos : 0 < n) (hn1 : n - 1 < (keys.filter (matchesFilter spec)).length)
    (hlk : (keys.filter (matchesFilter spec))[n - 1] = lk)
    (j : Nat) (hj : j < keys.length) (hjeq : keys[j] = lk) :
    (keys.drop (j + 1)).filter (matchesFilter spec) =
      (keys.filter (matchesFilter spec)).drop n := by
  have hmatch : matchesFilter spec lk = true := by
    rw [← hlk]
    exact List.of_mem_filter (List.getElem_mem hn1)
  have d3 : keys.drop j = keys.filter (fun x => !ltB x lk) := by
    rw [← sorted_dropWhile_getElem keys hs j hj]
    rw [show (fun x => ltB x (keys[j])) = (fun x => ltB x lk) from by rw [hjeq]]
    exact sorted_dropWhile_eq_filter lk keys hs
  have d1 : keys.drop j = lk :: keys.drop (j + 1) := by
    rw [List.drop_eq_getElem_cons hj, hjeq]
  have d2 : (keys.drop j).filter (matchesFilter spec) =
      lk :: (keys.drop (j + 1)).filter (matchesFilter spec) := by
    rw [d1, List.filter_cons_of_pos hmatch]
  have d4 : (keys.drop j).filter (matchesFilter spec) =
      (keys.filter (matchesFilter spec)).filter (fun x => !ltB x lk) := by
    rw [d3, List.filter_filter, List.filter_filter]
    congr 1
    funext a
    rw [Bool.and_comm]
  have hFs : (keys.filter (matchesFilter spec)).Pairwise
      (fun a b => ltB a b = true) := hs.filter _
  have d5 : (keys.filter (matchesFilter spec)).filter (fun x => !ltB x lk) =
      (keys.filter (matchesFilter spec)).drop (n - 1) := by
    rw [show (fun x : Key => !ltB x lk) =
        (fun x => !ltB x ((keys.filter (matchesFilter spec))[n - 1])) from by
      rw [hlk]]
    rw [← sorted_dropWhile_eq_filter ((keys.filter (matchesFilter spec))[n - 1])
      (keys.filter (matchesFilter spec)) hFs]
    exact sorted_dropWhile_getElem (keys.filter (matchesFilter spec)) hFs (n - 1) hn1
  have e2 : (keys.filter (matchesFilter spec)).drop (n - 1) =
      lk :: (keys.filter (matchesFilter spec)).drop n := by
    have hsum : n - 1 + 1 = n := by omega
    rw [List.drop_eq_getElem_cons hn1, hlk, hsum]
  have chain := d2.symm.trans (d4.trans (d5.trans e2))
  rw [List.cons.injEq] at chain
  exact chain.2

/-- Full analysis of a `loadNextPage` call that actually scans, over a
sorted store with a page that is an initial segment of the filtered store:
the seek/step pair lands on a store tail holding exactly the undisplayed
matches, every store key beyond the whole page is in that tail, every tail
key is beyond the page, and the call appends the next page of matches. -/
theorem loadNextPage_run_sorted (spec : Key) (pageSize : Nat) (it : DbIter)
    (st : PagerState) (hps : 0 < pageSize)
    (hs : it.keys.Pairwise (fun a b => ltB a b = true))
    (hinv1 : st.displayedKeys =
      (it.keys.filter (matchesFilter spec)).take st.displayedKeys.length)
    (h1 : st.hasMoreKeys = true) (h2 : st.displayedKeys ≠ []) :
    ∃ tail : List Key,
      tail.Pairwise (fun a b => ltB a b = true) ∧
      (∀ x ∈ tail, x ∈ it.keys) ∧
      (∀ x, x ∈ it.keys → (∀ d ∈ st.displayedKeys, ltB d x = true) → x ∈ tail) ∧
      (∀ x ∈ tail, ∀ d ∈ st.displayedKeys, ltB d x = true) ∧
      tail.filter (matchesFilter spec) =
        (it.keys.filter (matchesFilter spec)).drop st.displayedKeys.length ∧
      loadNextPage spec pageSize it st =
        ({ st with
            displayedKeys := st.displayedKeys ++
              ((it.keys.filter (matchesFilter spec)).drop
                st.displayedKeys.length).take pageSize
            hasMoreKeys := !(restAfter (matchesFilter spec) pageSize tail).isEmpty },
          (((it.keys.filter (matchesFilter spec)).drop
            st.displayedKeys.length).take pageSize).length != 0) := by
  have hnpos : 0 < st.displayedKeys.length := List.length_pos.mpr h2
  have hnle : st.displayedKeys.length ≤
      (it.keys.filter (matchesFilter spec)).length := by
    have hlen := congrArg List.length hinv1
    simp only [List.length_take] at hlen
    omega
  have hn1 : st.displayedKeys.length - 1 <
      (it.keys.filter (matchesFilter spec)).length := by omega
  obtain ⟨lk, hlk⟩ : ∃ lk,
      (it.keys.filter (matchesFilter spec))[st.displayedKeys.length - 1] = lk :=
    ⟨_, rfl⟩
  have hlast : st.displayedKeys.getLastD [] = lk := by
    rw [hinv1, getLastD_take _ _ hnpos hnle]
    exact hlk
  have hlkmem : lk ∈ st.displayedKeys := by
    rw [hinv1, ← hlk]
    have hl2 : st.displayedKeys.length - 1 <
        ((it.keys.filter (matchesFilter spec)).take st.displayedKeys.length).length := by
      simp only [List.length_take]
      omega
    have hg : (it.keys.filter (matchesFilter spec))[st.displayedKeys.length - 1] =
        ((it.keys.filter (matchesFilter spec)).take
          st.displayedKeys.length)[st.displayedKeys.length - 1] := by
      rw [List.getElem_take]
    rw [hg]
    exact List.getElem_mem hl2
  have hmatch : matchesFilter spec lk = true := by
    rw [← hlk]
    exact List.of_mem_filter (List.getElem_mem hn1)
  have hlkkeys : lk ∈ it.keys := by
    rw [← hlk]
    exact List.mem_of_mem_filter (List.getElem_mem hn1)
  rcases List.mem_iff_getElem.mp hlkkeys with ⟨j, hj, hjeq⟩
  refine ⟨it.keys.drop (j + 1), hs.sublist (List.drop_sublist (j + 1) it.keys),
    fun x hx => (List.drop_sublist (j + 1) it.keys).mem hx, ?_, ?_, ?_, ?_⟩
  · intro x hxkeys hxbeyond
    have hlkx : ltB lk x = true := hxbeyond _ hlkmem
    rcases List.mem_iff_getElem.mp hxkeys with ⟨j2, hj2, hj2eq⟩
    have hjj2 : j + 1 ≤ j2 := by
      by_contra hcon
      rcases Nat.lt_or_ge j2 j with hlt | hge
      · have hcomp := (List.pairwise_iff_getElem.mp hs) j2 j hj2 hj hlt
        rw [hj2eq, hjeq] at hcomp
        have hasy := ltB_asymm hcomp
        rw [hlkx] at hasy
        exact absurd hasy (by simp)
      · have hx2 : j2 = j := by omega
        subst hx2
        have hxlk : x = lk := by rw [← hj2eq, hjeq]
        rw [hxlk, ltB_irrefl] at hlkx
        exact absurd hlkx (by simp)
    apply List.mem_iff_getElem.mpr
    have hj2d : j2 - (j + 1) < (it.keys.drop (j + 1)).length := by
      simp only [List.length_drop]
      omega
    refine ⟨j2 - (j + 1), hj2d, ?_⟩
    rw [List.getElem_drop]
    have he : j + 1 + (j2 - (j + 1)) = j2 := by omega
    simp only [he]
    exact hj2eq
  · intro x hx d hd
    rcases List.mem_iff_getElem.mp hx with ⟨j3, hj3, hj3eq⟩
    have hj3k : j + 1 + j3 < it.keys.length := by
      have hlen := hj3
      simp only [List.length_drop] at hlen
      omega
    have hxval : it.keys[j + 1 + j3] = x := by
      rw [← hj3eq, List.getElem_drop]
    have hlkx : ltB lk x = true := by
      rw [← hxval, ← hjeq]
      exact (List.pairwise_iff_getElem.mp hs) j (j + 1 + j3) hj hj3k (by omega)
    have hd2 : d ∈ (it.keys.filter (matchesFilter spec)).take
        st.displayedKeys.length := by
      rw [← hinv1]
      exact hd
    rcases mem_take_eq_or_lt _ (hs.filter _) _ hnpos hnle d hd2 with he | hlt
    · rw [he, hlk]
      exact hlkx
    · refine ltB_trans ?_ hlkx
      rw [← hlk]
      exact hlt
  · exact seek_tail_filter spec it.keys hs lk st.displayedKeys.length hnpos hn1 hlk
      j hj hjeq
  · have hseek : seekTo (st.displayedKeys.getLastD []) it.keys =
        lk :: it.keys.drop (j + 1) := by
      rw [hlast]
      unfold seekTo
      rw [show (fun k => ltB k lk) = (fun k => ltB k (it.keys[j])) from by rw [hjeq]]
      rw [sorted_dropWhile_getElem it.keys hs j hj, List.drop_eq_getElem_cons hj, hjeq]
    rw [loadNextPage_run spec pageSize it st h1 h2 _ _ hseek]
    have hscan := loadNextScan_eq spec pageSize (it.keys.drop (j + 1)) 0 hps
    simp only [Nat.sub_zero, Nat.zero_add] at hscan
    have htail := seek_tail_filter spec it.keys hs lk st.displayedKeys.length hnpos hn1
      hlk j hj hjeq
    rw [hscan, htail]

/-- Session invariant of the pager: the displayed keys are an initial
segment of the filtered store; a cleared `hasMoreKeys` means every match
is displayed; an empty page means the store has no matches at all. -/
def pageInv (spec : Key) (it : DbIter) (st : PagerState) : Prop :=
  st.displayedKeys =
      (it.keys.filter (matchesFilter spec)).take st.displayedKeys.length
  ∧ (st.hasMoreKeys = false →
      st.displayedKeys.length = (it.keys.filter (matchesFilter spec)).length)
  ∧ (st.displayedKeys = [] → it.keys.filter (matchesFilter spec) = [])

/-- The first-page load establishes the session invariant. -/
theorem pageInv_initial (spec : Key) (pageSize : Nat) (it : DbIter)
    (hps : 0 < pageSize) :
    pageInv spec it (loadInitialKeys spec pageSize it) := by
  rw [loadInitialKeys_eq spec pageSize it hps]
  unfold pageInv
  refine ⟨?_, ?_, ?_⟩
  · exact (take_length_take _ _).symm
  · intro hmore
    simp only at hmore
    have hnil : restAfter (matchesFilter spec) pageSize it.keys = [] := by
      cases hh : restAfter (matchesFilter spec) pageSize it.keys with
      | nil => rfl
      | cons a l =>
        rw [hh] at hmore
        simp at hmore
    have hlen := length_le_of_restAfter_eq_nil (matchesFilter spec) it.keys
      pageSize hps hnil
    simp only [List.length_take]
    omega
  · intro hemp
    simp only at hemp
    rcases List.take_eq_nil_iff.mp hemp with h | h
    · omega
    · exact h

/-- `loadNextPage` preserves the session invariant over a sorted store. -/
theorem pageInv_extend (spec : Key) (pageSize : Nat) (it : DbIter)
    (st : PagerState) (hps : 0 < pageSize)
    (hs : it.keys.Pairwise (fun a b => ltB a b = true))
    (hinv : pageInv spec it st) :
    pageInv spec it (loadNextPage spec pageSize it st).1 := by
  obtain ⟨hinv1, hinv2, hinv3⟩ := hinv
  by_cases h1 : st.hasMoreKeys = true
  · by_cases h2 : st.displayedKeys = []
    · rw [loadNextPage_noop spec pageSize it st (Or.inr h2)]
      exact ⟨hinv1, hinv2, hinv3⟩
    · have hnle : st.displayedKeys.length ≤
          (it.keys.filter (matchesFilter spec)).length := by
        have hlen := congrArg List.length hinv1
        simp only [List.length_take] at hlen
        omega
      obtain ⟨tail, _, _, _, _, htail, hcall⟩ :=
        loadNextPage_run_sorted spec pageSize it st hps hs hinv1 h1 h2
      rw [hcall]
      obtain ⟨n, hn⟩ : ∃ n, st.displayedKeys.length = n := ⟨_, rfl⟩
      rw [hn] at hinv1 hnle ⊢
      unfold pageInv
      refine ⟨?_, ?_, ?_⟩
      · rw [hinv1, ← List.take_add]
        exact (take_length_take _ _).symm
      · intro hmore
        simp only at hmore
        have hnil : restAfter (matchesFilter spec) pageSize tail = [] := by
          cases hh : restAfter (matchesFilter spec) pageSize tail with
          | nil => rfl
          | cons a l =>
            rw [hh] at hmore
            simp at hmore
        have hlen := length_le_of_restAfter_eq_nil (matchesFilter spec) tail
          pageSize hps hnil
        rw [htail, hn] at hlen
        simp only [List.length_drop] at hlen
        rw [hinv1]
        simp only [List.length_append, List.length_take, List.length_drop]
        omega
      · intro hemp
        rw [List.append_eq_nil] at hemp
        exact absurd hemp.1 h2
  · have h1f : st.hasMoreKeys = false := by
      cases hh : st.hasMoreKeys with
      | false => rfl
      | true => exact absurd hh h1
    rw [loadNextPage_noop spec pageSize it st (Or.inl h1f)]
    exact ⟨hinv1, hinv2, hinv3⟩

/-- The session invariant holds after the first-page load followed by any
number of extends. -/
theorem pageInv_session (spec : Key) (pageSize : Nat) (it : DbIter)
    (hps : 0 < pageSize) (hs : it.keys.Pairwise (fun a b => ltB a b = true)) :
    ∀ k : Nat,
      pageInv spec it (extendTimes spec pageSize it (loadInitialKeys spec pageSize it) k) := by
  intro k
  induction k with
  | zero => exact pageInv_initial spec pageSize it hps
  | succ k ih =>
    simp only [extendTimes]
    exact pageInv_extend spec pageSize it _ hps hs ih

/-- C2: for a fixed FilterSpec, the sequence held after the first-page
load and any number of successive extends is an initial segment of the
filtered store in store order — hence strictly increasing, with no
duplicate and no matching key skipped between two returned keys — over
any sorted store snapshot. -/
theorem C2_pagination_strictly_increasing (spec : Key) (pageSize : Nat)
    (it : DbIter) (k : Nat)
    (hs : it.keys.Pairwise (fun a b => ltB a b = true)) (hps : 0 < pageSize) :
    (extendTimes spec pageSize it (loadInitialKeys spec pageSize it) k).displayedKeys =
        (it.keys.filter (matchesFilter spec)).take
          (extendTimes spec pageSize it
            (loadInitialKeys spec pageSize it) k).displayedKeys.length
    ∧ (extendTimes spec pageSize it
        (loadInitialKeys spec pageSize it) k).displayedKeys.Pairwise
        (fun a b => ltB a b = true)
    ∧ (extendTimes spec pageSize it
        (loadInitialKeys spec pageSize it) k).displayedKeys.Nodup := by
  have hinv := pageInv_session spec pageSize it hps hs k
  obtain ⟨hinv1, _, _⟩ := hinv
  have hpair : (extendTimes spec pageSize it
      (loadInitialKeys spec pageSize it) k).displayedKeys.Pairwise
      (fun a b => ltB a b = true) := by
    rw [hinv1]
    exact ((hs.filter _).sublist (List.take_sublist _ _))
  refine ⟨hinv1, hpair, ?_⟩
  refine hpair.imp ?_
  intro a b hab he
  subst he
  rw [ltB_irrefl] at hab
  exact absurd hab (by simp)

/-- Witness for C2 at a concrete sorted three-key store, one-key pages and
one extend. -/
theorem C2_pagination_strictly_increasing_witness :
    (extendTimes [] 1 ⟨["B".toList, "a".toList, "c".toList], none⟩
        (loadInitialKeys [] 1 ⟨["B".toList, "a".toList, "c".toList], none⟩)
        1).displayedKeys =
      ((["B".toList, "a".toList, "c".toList] : List Key).filter
        (matchesFilter [])).take
        (extendTimes [] 1 ⟨["B".toList, "a".toList, "c".toList], none⟩
          (loadInitialKeys [] 1 ⟨["B".toList, "a".toList, "c".toList], none⟩)
          1).displayedKeys.length
    ∧ (extendTimes [] 1 ⟨["B".toList, "a".toList, "c".toList], none⟩
        (loadInitialKeys [] 1 ⟨["B".toList, "a".toList, "c".toList], none⟩)
        1).displayedKeys.Pairwise (fun a b => ltB a b = true)
    ∧ (extendTimes [] 1 ⟨["B".toList, "a".toList, "c".toList], none⟩
        (loadInitialKeys [] 1 ⟨["B".toList, "a".toList, "c".toList], none⟩)
        1).displayedKeys.Nodup :=
  C2_pagination_strictly_increasing [] 1
    ⟨["B".toList, "a".toList, "c".toList], none⟩ 1 (by decide) (by decide)

/-- Every key the first-page loop adds beyond its accumulator passed the
filter check. -/
theorem loadInitialScan_mem (spec : Key) (pageSize : Nat) :
    ∀ (keys acc : List Key), ∀ x ∈ (loadInitialScan spec pageSize acc keys).1,
      x ∈ acc ∨ matchesFilter spec x = true := by
  intro keys
  induction keys with
  | nil =>
    intro acc x hx
    simp only [loadInitialScan] at hx
    exact Or.inl hx
  | cons k rest ih =>
    intro acc x hx
    by_cases hf : matchesFilter spec k = true
    · by_cases hc : pageSize ≤ (acc ++ [k]).length
      · simp only [loadInitialScan, if_pos hf, if_pos hc] at hx
        rcases List.mem_append.mp hx with h | h
        · exact Or.inl h
        · simp only [List.mem_singleton] at h
          subst h
          exact Or.inr hf
      · simp only [loadInitialScan, if_pos hf, if_neg hc] at hx
        rcases ih (acc ++ [k]) x hx with h | h
        · rcases List.mem_append.mp h with h2 | h2
          · exact Or.inl h2
          · simp only [List.mem_singleton] at h2
            subst h2
            exact Or.inr hf
        · exact Or.inr h
    · have hf2 : matchesFilter spec k = false := by
        cases hc : matchesFilter spec k with
        | false => rfl
        | true => exact absurd hc hf
      simp only [loadInitialScan, hf2] at hx
      simp only [if_neg (by simp : ¬ (false = true))] at hx
      exact ih acc x hx

/-- Every key the extend loop collects passed the filter check. -/
theorem loadNextScan_mem (spec : Key) (pageSize : Nat) :
    ∀ (keys : List Key) (count : Nat), ∀ x ∈ (loadNextScan spec pageSize count keys).1,
      matchesFilter spec x = true := by
  intro keys
  induction keys with
  | nil =>
    intro count x hx
    simp [loadNextScan] at hx
  | cons k rest ih =>
    intro count x hx
    by_cases hc : pageSize ≤ count
    · simp [loadNextScan, if_pos hc] at hx
    · by_cases hf : matchesFilter spec k = true
      · simp only [loadNextScan, if_neg hc, if_pos hf, List.mem_cons] at hx
        rcases hx with h | h
        · subst h
          exact hf
        · exact ih (count + 1) x h
      · have hf2 : matchesFilter spec k = false := by
          cases hcc : matchesFilter spec k with
          | false => rfl
          | true => exact absurd hcc hf
        simp only [loadNextScan, if_neg hc, hf2] at hx
        simp only [if_neg (by simp : ¬ (false = true))] at hx
        exact ih count x hx

/-- The failed-seek branch of `loadNextPage`. -/
theorem loadNextPage_seekfail (spec : Key) (pageSize : Nat) (it : DbIter)
    (st : PagerState) (h1 : st.hasMoreKeys = true) (h2 : st.displayedKeys ≠ [])
    (hseek : seekTo (st.displayedKeys.getLastD []) it.keys = []) :
    loadNextPage spec pageSize it st = (st, false) := by
  have hemp : st.displayedKeys.isEmpty = false := by
    cases hd : st.displayedKeys with
    | nil => exact absurd hd h2
    | cons a l => simp
  have hseek2 : seekTo (st.displayedKeys.getLast?.getD []) it.keys = [] := by
    rw [← List.getLastD_eq_getLast?]
    exact hseek
  simp [loadNextPage, h1, hemp, hseek, hseek2]

/-- A key displayed after `loadNextPage` was already displayed or passed
the filter check during the extend scan. -/
theorem loadNextPage_displayed_mem (spec : Key) (pageSize : Nat) (it : DbIter)
    (st : PagerState) :
    ∀ x ∈ (loadNextPage spec pageSize it st).1.displayedKeys,
      x ∈ st.displayedKeys ∨ matchesFilter spec x = true := by
  intro x hx
  by_cases h1 : st.hasMoreKeys = true
  · by_cases h2 : st.displayedKeys = []
    · rw [loadNextPage_noop spec pageSize it st (Or.inr h2)] at hx
      exact Or.inl hx
    · cases hseek : seekTo (st.displayedKeys.getLastD []) it.keys with
      | nil =>
        rw [loadNextPage_seekfail spec pageSize it st h1 h2 hseek] at hx
        exact Or.inl hx
      | cons lk rest =>
        rw [loadNextPage_run spec pageSize it st h1 h2 lk rest hseek] at hx
        simp only at hx
        rcases List.mem_append.mp hx with h | h
        · exact Or.inl h
        · exact Or.inr (loadNextScan_mem spec pageSize rest 0 x h)
  · have h1f : st.hasMoreKeys = false := by
      cases hh : st.hasMoreKeys with
      | false => rfl
      | true => exact absurd hh h1
    rw [loadNextPage_noop spec pageSize it st (Or.inl h1f)] at hx
    exact Or.inl hx

/-- Spelling out a successful filter check: the spec is empty, or the
lower-cased spec occurs in the lower-cased key. -/
theorem matchesFilter_spelled {spec key : Key} (h : matchesFilter spec key = true) :
    spec = [] ∨ strContains (key.map Char.toLower) (spec.map Char.toLower) = true := by
  unfold matchesFilter at h
  rcases Bool.or_eq_true_iff.mp h with h2 | h2
  · exact Or.inl (by simpa using h2)
  · exact Or.inr h2

/-- C1: every key in a page produced under a FilterSpec — by the
first-page load or by an extend from a page that itself satisfied the
filter — case-insensitively contains the FilterSpec as a substring
(unless the FilterSpec is empty), and the empty FilterSpec accepts every
key of the store. -/
theorem C1_pages_satisfy_filter :
    (∀ (spec : Key) (pageSize : Nat) (it : DbIter),
      ∀ key ∈ (loadInitialKeys spec pageSize it).displayedKeys,
        spec = [] ∨ strContains (key.map Char.toLower) (spec.map Char.toLower) = true)
    ∧ (∀ (spec : Key) (pageSize : Nat) (it : DbIter) (st : PagerState),
        (∀ key ∈ st.displayedKeys,
          spec = [] ∨ strContains (key.map Char.toLower) (spec.map Char.toLower) = true) →
        ∀ key ∈ (loadNextPage spec pageSize it st).1.displayedKeys,
          spec = [] ∨ strContains (key.map Char.toLower) (spec.map Char.toLower) = true)
    ∧ (∀ key : Key, matchesFilter [] key = true) := by
  refine ⟨?_, ?_, ?_⟩
  · intro spec pageSize it key hkey
    simp only [loadInitialKeys] at hkey
    rcases loadInitialScan_mem spec pageSize it.keys [] key hkey with h | h
    · simp at h
    · exact matchesFilter_spelled h
  · intro spec pageSize it st hprev key hkey
    rcases loadNextPage_displayed_mem spec pageSize it st key hkey with h | h
    · exact hprev key h
    · exact matchesFilter_spelled h
  · intro key
    rfl

/-- Witness for C1's extend clause at a concrete store and page. -/
theorem C1_pages_satisfy_filter_witness :
    ∀ key ∈ (loadNextPage "a".toList 1 ⟨["aa".toList, "ab".toList], none⟩
        { displayedKeys := ["aa".toList], hasMoreKeys := true,
          statusMessage := none }).1.displayedKeys,
      "a".toList = [] ∨
        strContains (key.map Char.toLower) ("a".toList.map Char.toLower) = true :=
  C1_pages_satisfy_filter.2.1 "a".toList 1 ⟨["aa".toList, "ab".toList], none⟩
    { displayedKeys := ["aa".toList], hasMoreKeys := true, statusMessage := none }
    (by decide)

/-- The extend loop's final count is its starting count plus the number
of keys it collected. -/
theorem loadNextScan_count (spec : Key) (pageSize : Nat) :
    ∀ (keys : List Key) (count : Nat),
      (loadNextScan spec pageSize count keys).2.2 =
        count + (loadNextScan spec pageSize count keys).1.length := by
  intro keys
  induction keys with
  | nil => intro count; simp [loadNextScan]
  | cons k rest ih =>
    intro count
    by_cases hc : pageSize ≤ count
    · simp [loadNextScan, if_pos hc]
    · by_cases hf : matchesFilter spec k = true
      · simp only [loadNextScan, if_neg hc, if_pos hf, List.length_cons]
        rw [ih (count + 1)]
        omega
      · have hf2 : matchesFilter spec k = false := by
          cases hcc : matchesFilter spec k with
          | false => rfl
          | true => exact absurd hcc hf
        simp only [loadNextScan, if_neg hc, hf2]
        simp only [if_neg (by simp : ¬ (false = true))]
        exact ih count

/-- C5: `loadNextPage` is a no-op returning false when the
"more available" flag is down or the page is empty, and in every case its
return value is true exactly when the page grew by at least one key. -/
theorem C5_extend_noop_and_return (spec : Key) (pageSize : Nat) (it : DbIter)
    (st : PagerState) :
    ((st.hasMoreKeys = false ∨ st.displayedKeys = []) →
      loadNextPage spec pageSize it st = (st, false))
    ∧ ((loadNextPage spec pageSize it st).2 = true ↔
        st.displayedKeys.length <
          (loadNextPage spec pageSize it st).1.displayedKeys.length) := by
  constructor
  · exact loadNextPage_noop spec pageSize it st
  · by_cases h1 : st.hasMoreKeys = true
    · by_cases h2 : st.displayedKeys = []
      · rw [loadNextPage_noop spec pageSize it st (Or.inr h2)]
        simp
      · cases hseek : seekTo (st.displayedKeys.getLastD []) it.keys with
        | nil =>
          rw [loadNextPage_seekfail spec pageSize it st h1 h2 hseek]
          simp
        | cons lk rest =>
          rw [loadNextPage_run spec pageSize it st h1 h2 lk rest hseek]
          simp only [List.length_append]
          rw [loadNextScan_count spec pageSize rest 0]
          simp only [Nat.zero_add, bne_iff_ne, Ne]
          omega
    · have h1f : st.hasMoreKeys = false := by
        cases hh : st.hasMoreKeys with
        | false => rfl
        | true => exact absurd hh h1
      rw [loadNextPage_noop spec pageSize it st (Or.inl h1f)]
      simp

/-- Witness for C5 at a concrete state with the flag down. -/
theorem C5_extend_noop_and_return_witness :
    loadNextPage [] 1 ⟨[], none⟩
        { displayedKeys := ["k".toList], hasMoreKeys := false, statusMessage := none } =
      ({ displayedKeys := ["k".toList], hasMoreKeys := false, statusMessage := none },
        false) :=
  (C5_extend_noop_and_return [] 1 ⟨[], none⟩
    { displayedKeys := ["k".toList], hasMoreKeys := false, statusMessage := none }).1
    (Or.inl rfl)

/-- C6 counterexample: an extend scan over an iterator whose error channel
reports a corruption still appends keys but surfaces nothing — the status
message is left untouched, so the error is silently swallowed, contrary to
the claim that every scan surfaces iterator errors. -/
theorem C6_counterexample :
    (⟨["a".toList, "b".toList], some "corruption"⟩ : DbIter).iterError =
        some "corruption"
    ∧ (loadNextPage [] 2 ⟨["a".toList, "b".toList], some "corruption"⟩
        { displayedKeys := ["a".toList], hasMoreKeys := true,
          statusMessage := none }).1.statusMessage = none
    ∧ (loadNextPage [] 2 ⟨["a".toList, "b".toList], some "corruption"⟩
        { displayedKeys := ["a".toList], hasMoreKeys := true,
          statusMessage := none }).1.displayedKeys =
        ["a".toList, "b".toList] := by
  refine ⟨rfl, ?_, ?_⟩ <;> decide

/-- C6 amended: the first-page load surfaces an iterator error through the
status message and keeps the collected partial page; the extend scan never
consults the error channel, leaving the status untouched. -/
theorem C6_amended_error_surfacing (spec : Key) (pageSize : Nat)
    (keys : List Key) (e : String) (st : PagerState) :
    (loadInitialKeys spec pageSize ⟨keys, some e⟩).statusMessage =
        some ("[red]Error: " ++ e)
    ∧ (loadInitialKeys spec pageSize ⟨keys, some e⟩).displayedKeys =
        (loadInitialKeys spec pageSize ⟨keys, none⟩).displayedKeys
    ∧ (loadNextPage spec pageSize ⟨keys, some e⟩ st).1.statusMessage =
        st.statusMessage := by
  refine ⟨rfl, rfl, ?_⟩
  by_cases h1 : st.hasMoreKeys = true
  · by_cases h2 : st.displayedKeys = []
    · rw [loadNextPage_noop spec pageSize ⟨keys, some e⟩ st (Or.inr h2)]
    · cases hseek : seekTo (st.displayedKeys.getLastD [])
          (⟨keys, some e⟩ : DbIter).keys with
      | nil =>
        rw [loadNextPage_seekfail spec pageSize ⟨keys, some e⟩ st h1 h2 hseek]
      | cons lk rest =>
        rw [loadNextPage_run spec pageSize ⟨keys, some e⟩ st h1 h2 lk rest hseek]
  · have h1f : st.hasMoreKeys = false := by
      cases hh : st.hasMoreKeys with
      | false => rfl
      | true => exact absurd hh h1
    rw [loadNextPage_noop spec pageSize ⟨keys, some e⟩ st (Or.inl h1f)]

/-- C3 counterexample: with page size 2 over a three-key store, one extend
grows the sequence of keys held by the pager to three entries, exceeding
the configured page size — refuting "the Page has length at most the page
size at every point in a session". -/
theorem C3_counterexample :
    ¬ ((extendTimes [] 2 ⟨["a".toList, "b".toList, "c".toList], none⟩
        (loadInitialKeys [] 2 ⟨["a".toList, "b".toList, "c".toList], none⟩)
        1).displayedKeys.length ≤ 2) := by
  decide

/-- C3 amended: each scan segment is page-bounded — the first page never
exceeds the page size and each extend appends at most a page of new keys —
and each bound is attained exactly when matching keys remain beyond the
resulting page; the cumulative held sequence, however, may exceed the page
size. -/
theorem C3_amended_per_segment_bound (spec : Key) (pageSize : Nat)
    (it : DbIter) (k : Nat)
    (hs : it.keys.Pairwise (fun a b => ltB a b = true)) (hps : 0 < pageSize) :
    (loadInitialKeys spec pageSize it).displayedKeys.length ≤ pageSize
    ∧ ((∃ x ∈ it.keys, matchesFilter spec x = true ∧
          x ∉ (loadInitialKeys spec pageSize it).displayedKeys) →
        (loadInitialKeys spec pageSize it).displayedKeys.length = pageSize)
    ∧ ((loadNextPage spec pageSize it
          (extendTimes spec pageSize it
            (loadInitialKeys spec pageSize it) k)).1.displayedKeys.length ≤
        (extendTimes spec pageSize it
          (loadInitialKeys spec pageSize it) k).displayedKeys.length + pageSize)
    ∧ ((∃ x ∈ it.keys, matchesFilter spec x = true ∧
          x ∉ (loadNextPage spec pageSize it
            (extendTimes spec pageSize it
              (loadInitialKeys spec pageSize it) k)).1.displayedKeys) →
        (loadNextPage spec pageSize it
          (extendTimes spec pageSize it
            (loadInitialKeys spec pageSize it) k)).1.displayedKeys.length =
          (extendTimes spec pageSize it
            (loadInitialKeys spec pageSize it) k).displayedKeys.length + pageSize) := by
  obtain ⟨hinv1, hinv2, hinv3⟩ := pageInv_session spec pageSize it hps hs k
  refine ⟨?_, ?_, ?_, ?_⟩
  · rw [loadInitialKeys_eq spec pageSize it hps]
    simp only [List.length_take]
    omega
  · rintro ⟨x, hxkeys, hxmatch, hxout⟩
    rw [loadInitialKeys_eq spec pageSize it hps] at hxout ⊢
    simp only at hxout ⊢
    have hxF : x ∈ it.keys.filter (matchesFilter spec) :=
      List.mem_filter.mpr ⟨hxkeys, hxmatch⟩
    rw [← List.take_append_drop pageSize (it.keys.filter (matchesFilter spec))] at hxF
    rcases List.mem_append.mp hxF with h | h
    · exact absurd h hxout
    · have hne := List.ne_nil_of_mem h
      have hlen : pageSize < (it.keys.filter (matchesFilter spec)).length := by
        by_contra hcon
        exact hne (List.drop_eq_nil_iff.mpr (by omega))
      simp only [List.length_take]
      omega
  · by_cases h1 : (extendTimes spec pageSize it
        (loadInitialKeys spec pageSize it) k).hasMoreKeys = true
    · by_cases h2 : (extendTimes spec pageSize it
          (loadInitialKeys spec pageSize it) k).displayedKeys = []
      · rw [loadNextPage_noop spec pageSize it _ (Or.inr h2)]
        exact Nat.le_add_right _ _
      · obtain ⟨tail, _, _, _, _, _, hcall⟩ :=
          loadNextPage_run_sorted spec pageSize it _ hps hs hinv1 h1 h2
        rw [hcall]
        simp only [List.length_append, List.length_take]
        omega
    · have h1f : (extendTimes spec pageSize it
          (loadInitialKeys spec pageSize it) k).hasMoreKeys = false := by
        cases hh : (extendTimes spec pageSize it
            (loadInitialKeys spec pageSize it) k).hasMoreKeys with
        | false => rfl
        | true => exact absurd hh h1
      rw [loadNextPage_noop spec pageSize it _ (Or.inl h1f)]
      exact Nat.le_add_right _ _
  · rintro ⟨x, hxkeys, hxmatch, hxout⟩
    have hxF : x ∈ it.keys.filter (matchesFilter spec) :=
      List.mem_filter.mpr ⟨hxkeys, hxmatch⟩
    by_cases h1 : (extendTimes spec pageSize it
        (loadInitialKeys spec pageSize it) k).hasMoreKeys = true
    · by_cases h2 : (extendTimes spec pageSize it
          (loadInitialKeys spec pageSize it) k).displayedKeys = []
      · rw [h2] at hinv3
        rw [hinv3 rfl] at hxF
        exact absurd hxF (List.not_mem_nil x)
      · obtain ⟨tail, _, _, _, _, _, hcall⟩ :=
          loadNextPage_run_sorted spec pageSize it _ hps hs hinv1 h1 h2
        rw [hcall] at hxout ⊢
        simp only at hxout ⊢
        obtain ⟨n, hn⟩ : ∃ n, (extendTimes spec pageSize it
            (loadInitialKeys spec pageSize it) k).displayedKeys.length = n := ⟨_, rfl⟩
        rw [hn] at hinv1 hxout ⊢
        have hdisp : (extendTimes spec pageSize it
            (loadInitialKeys spec pageSize it) k).displayedKeys ++
              ((it.keys.filter (matchesFilter spec)).drop n).take pageSize =
            (it.keys.filter (matchesFilter spec)).take (n + pageSize) := by
          rw [hinv1, ← List.take_add]
        rw [hdisp] at hxout
        have hnle : n ≤ (it.keys.filter (matchesFilter spec)).length := by
          have hlen := congrArg List.length hinv1
          simp only [List.length_take] at hlen
          omega
        have hlen2 : n + pageSize < (it.keys.filter (matchesFilter spec)).length := by
          rw [← List.take_append_drop (n + pageSize)
            (it.keys.filter (matchesFilter spec))] at hxF
          rcases List.mem_append.mp hxF with h | h
          · exact absurd h hxout
          · have hne := List.ne_nil_of_mem h
            by_contra hcon
            exact hne (List.drop_eq_nil_iff.mpr (by omega))
        simp only [List.length_append, List.length_take, List.length_drop]
        omega
    · have h1f : (extendTimes spec pageSize it
          (loadInitialKeys spec pageSize it) k).hasMoreKeys = false := by
        cases hh : (extendTimes spec pageSize it
            (loadInitialKeys spec pageSize it) k).hasMoreKeys with
        | false => rfl
        | true => exact absurd hh h1
      rw [loadNextPage_noop spec pageSize it _ (Or.inl h1f)] at hxout
      have hfull : (extendTimes spec pageSize it
          (loadInitialKeys spec pageSize it) k).displayedKeys =
          it.keys.filter (matchesFilter spec) := by
        rw [hinv1, hinv2 h1f, List.take_length]
      rw [hfull] at hxout
      exact absurd hxF hxout

/-- Witness for C3's amended per-segment bounds at a concrete store. -/
theorem C3_amended_per_segment_bound_witness :
    (loadInitialKeys [] 2
        ⟨["a".toList, "b".toList, "c".toList], none⟩).displayedKeys.length ≤ 2 :=
  (C3_amended_per_segment_bound [] 2 ⟨["a".toList, "b".toList, "c".toList], none⟩ 0
    (by decide) (by decide)).1

/-- Transfer an optional-indexing equality to dependent indexing. -/
theorem getElem_eq_of_getElem? {l1 l2 : List Key} {i j : Nat}
    (h1 : i < l1.length) (h2 : j < l2.length) (h : l1[i]? = l2[j]?) :
    l1[i] = l2[j] := by
  rw [List.getElem?_eq_getElem h1, List.getElem?_eq_getElem h2] at h
  exact Option.some.inj h

/-- On a sorted store, the residue after the `m`-th match is exactly the
set of keys strictly beyond that match — matching or not. -/
theorem restAfter_eq_filter_sorted (f : Key → Bool) :
    ∀ (keys : List Key), keys.Pairwise (fun a b => ltB a b = true) →
      ∀ (m : Nat), 0 < m → ∀ (hm : m - 1 < (keys.filter f).length),
        restAfter f m keys =
          keys.filter (fun x => ltB ((keys.filter f)[m - 1]) x) := by
  intro keys
  induction keys with
  | nil =>
    intro _ m _ hm
    simp at hm
  | cons k rest ih =>
    intro hs m hmpos hm
    rcases List.pairwise_cons.mp hs with ⟨hhead, htail⟩
    by_cases hf : f k = true
    · have hfil : (k :: rest).filter f = k :: rest.filter f :=
        List.filter_cons_of_pos hf
      rcases Nat.lt_or_ge 1 m with h1 | h1
      · have hm2 : m - 1 - 1 < (rest.filter f).length := by
          have := hm
          rw [hfil, List.length_cons] at this
          omega
        have hstep : restAfter f m (k :: rest) = restAfter f (m - 1) rest := by
          simp only [restAfter, if_pos hf, if_neg (by omega : ¬ m ≤ 1)]
        have hidx : ((k :: rest).filter f)[m - 1] =
            (rest.filter f)[m - 1 - 1] := by
          refine getElem_eq_of_getElem? hm hm2 ?_
          rw [hfil]
          obtain ⟨p, hp⟩ : ∃ p, m - 1 = p + 1 := ⟨m - 2, by omega⟩
          have hp2 : m - 1 - 1 = p := by omega
          rw [hp2, hp]
          exact List.getElem?_cons_succ
        rw [hstep, hidx, ih htail (m - 1) (by omega) hm2]
        rw [List.filter_cons_of_neg]
        simp only [Bool.not_eq_true]
        have hmem : (rest.filter f)[m - 1 - 1] ∈ rest :=
          List.mem_of_mem_filter (List.getElem_mem hm2)
        exact ltB_asymm (hhead _ hmem)
      · have hm1 : m = 1 := by omega
        subst hm1
        have hstep : restAfter f 1 (k :: rest) = rest := by
          simp only [restAfter, if_pos hf, if_pos (by omega : (1:Nat) ≤ 1)]
        have hidx : ((k :: rest).filter f)[0] = k := by
          have hq : ((k :: rest).filter f)[0]? = some k := by
            rw [hfil]
            simp
          rw [List.getElem?_eq_getElem hm] at hq
          exact Option.some.inj hq
        rw [hstep, hidx, List.filter_cons_of_neg (by simp [ltB_irrefl])]
        exact (List.filter_eq_self.mpr (fun x hx => hhead x hx)).symm
    · have hf2 : f k = false := by
        cases hc : f k with
        | false => rfl
        | true => exact absurd hc hf
      have hfil : (k :: rest).filter f = rest.filter f :=
        List.filter_cons_of_neg (by simp [hf2])
      have hm2 : m - 1 < (rest.filter f).length := by
        have := hm
        rw [hfil] at this
        exact this
      have hstep : restAfter f m (k :: rest) = restAfter f m rest := by
        simp only [restAfter, hf2]
        simp
      have hidx : ((k :: rest).filter f)[m - 1] = (rest.filter f)[m - 1] := by
        refine getElem_eq_of_getElem? hm hm2 ?_
        rw [hfil]
      rw [hstep, hidx, ih htail m hmpos hm2]
      rw [List.filter_cons_of_neg]
      simp only [Bool.not_eq_true]
      have hmem : (rest.filter f)[m - 1] ∈ rest :=
        List.mem_of_mem_filter (List.getElem_mem hm2)
      exact ltB_asymm (hhead _ hmem)

/-- Optional indexing into a dropped list shifts the index. -/
theorem getElem?_drop_eq (L : List Key) (i j : Nat) : (L.drop i)[j]? = L[i + j]? := by
  rcases Nat.lt_or_ge (i + j) L.length with h | h
  · have hd : j < (L.drop i).length := by
      simp only [List.length_drop]
      omega
    rw [List.getElem?_eq_getElem hd, List.getElem?_eq_getElem h]
    congr 1
    exact List.getElem_drop L
  · rw [List.getElem?_eq_none, List.getElem?_eq_none h]
    simp only [List.length_drop]
    omega

/-- After a first-page load over a sorted store, the "more available" flag
is up exactly when the page filled and some raw store key (matching or
not) lies beyond every displayed key. -/
theorem initial_hasMore_iff (spec : Key) (pageSize : Nat) (it : DbIter)
    (hs : it.keys.Pairwise (fun a b => ltB a b = true)) (hps : 0 < pageSize) :
    ((loadInitialKeys spec pageSize it).hasMoreKeys = true ↔
      (loadInitialKeys spec pageSize it).displayedKeys.length = pageSize ∧
      ∃ x ∈ it.keys, ∀ d ∈ (loadInitialKeys spec pageSize it).displayedKeys,
        ltB d x = true) := by
  rw [loadInitialKeys_eq spec pageSize it hps]
  dsimp only
  rcases Nat.lt_or_ge (it.keys.filter (matchesFilter spec)).length pageSize with hlt | hge
  · rw [restAfter_eq_nil_of_length_lt (matchesFilter spec) it.keys pageSize hlt]
    simp only [List.isEmpty_nil, Bool.not_true]
    constructor
    · intro h
      exact absurd h (by simp)
    · rintro ⟨hlen, -⟩
      rw [List.length_take] at hlen
      omega
  · have hm : pageSize - 1 < (it.keys.filter (matchesFilter spec)).length := by omega
    rw [restAfter_eq_filter_sorted (matchesFilter spec) it.keys hs pageSize hps hm]
    have hlen : ((it.keys.filter (matchesFilter spec)).take pageSize).length =
        pageSize := by
      simp only [List.length_take]
      omega
    constructor
    · intro h
      refine ⟨hlen, ?_⟩
      have hne : it.keys.filter
          (fun x => ltB ((it.keys.filter (matchesFilter spec))[pageSize - 1]) x) ≠
            [] := by
        intro hnil
        rw [hnil] at h
        simp at h
      obtain ⟨x, hx⟩ := List.exists_mem_of_ne_nil _ hne
      have hx2 := List.mem_filter.mp hx
      refine ⟨x, hx2.1, ?_⟩
      intro d hd
      rcases mem_take_eq_or_lt _ (hs.filter _) pageSize hps hge d hd with he | hlt2
      · rw [he]
        exact hx2.2
      · exact ltB_trans hlt2 hx2.2
    · rintro ⟨-, x, hxkeys, hbeyond⟩
      have hl2 : pageSize - 1 <
          ((it.keys.filter (matchesFilter spec)).take pageSize).length := by
        rw [hlen]
        omega
      have hlkmem : (it.keys.filter (matchesFilter spec))[pageSize - 1] ∈
          (it.keys.filter (matchesFilter spec)).take pageSize := by
        have hg : (it.keys.filter (matchesFilter spec))[pageSize - 1] =
            ((it.keys.filter (matchesFilter spec)).take
              pageSize)[pageSize - 1] := by
          rw [List.getElem_take]
        rw [hg]
        exact List.getElem_mem hl2
      have hlkx := hbeyond _ hlkmem
      have hxf : x ∈ it.keys.filter
          (fun y => ltB ((it.keys.filter (matchesFilter spec))[pageSize - 1]) y) :=
        List.mem_filter.mpr ⟨hxkeys, hlkx⟩
      cases hc : it.keys.filter
          (fun y => ltB ((it.keys.filter (matchesFilter spec))[pageSize - 1]) y) with
      | nil =>
        rw [hc] at hxf
        exact absurd hxf (List.not_mem_nil x)
      | cons a l => simp

/-- After an extend that actually scans, over a sorted store, the
"more available" flag is up exactly when the extend appended a full page
and some raw store key (matching or not) lies beyond every displayed key. -/
theorem extend_hasMore_iff (spec : Key) (pageSize : Nat) (it : DbIter)
    (st : PagerState)
    (hs : it.keys.Pairwise (fun a b => ltB a b = true)) (hps : 0 < pageSize)
    (hinv1 : st.displayedKeys =
      (it.keys.filter (matchesFilter spec)).take st.displayedKeys.length)
    (h1 : st.hasMoreKeys = true) (h2 : st.displayedKeys ≠ []) :
    ((loadNextPage spec pageSize it st).1.hasMoreKeys = true ↔
      (loadNextPage spec pageSize it st).1.displayedKeys.length =
        st.displayedKeys.length + pageSize ∧
      ∃ x ∈ it.keys, ∀ d ∈ (loadNextPage spec pageSize it st).1.displayedKeys,
        ltB d x = true) := by
  obtain ⟨tail, htsort, htmem, hcomplete, hbeyond, htail, hcall⟩ :=
    loadNextPage_run_sorted spec pageSize it st hps hs hinv1 h1 h2
  rw [hcall]
  dsimp only
  obtain ⟨n, hn⟩ : ∃ n, st.displayedKeys.length = n := ⟨_, rfl⟩
  rw [hn] at hinv1 htail ⊢
  have hnpos : 0 < n := by
    rw [← hn]
    exact List.length_pos.mpr h2
  have hnle : n ≤ (it.keys.filter (matchesFilter spec)).length := by
    have hlen := congrArg List.length hinv1
    simp only [List.length_take] at hlen
    omega
  have hdisp : st.displayedKeys ++
      ((it.keys.filter (matchesFilter spec)).drop n).take pageSize =
      (it.keys.filter (matchesFilter spec)).take (n + pageSize) := by
    rw [hinv1, ← List.take_add]
  rcases Nat.lt_or_ge ((it.keys.filter (matchesFilter spec)).length)
      (n + pageSize) with hlt | hge
  · have hlenfew : (tail.filter (matchesFilter spec)).length < pageSize := by
      rw [htail]
      simp only [List.length_drop]
      omega
    rw [restAfter_eq_nil_of_length_lt (matchesFilter spec) tail pageSize hlenfew]
    simp only [List.isEmpty_nil, Bool.not_true]
    constructor
    · intro h
      exact absurd h (by simp)
    · rintro ⟨hlen, -⟩
      rw [hdisp, List.length_take] at hlen
      omega
  · have hmB : pageSize - 1 < (tail.filter (matchesFilter spec)).length := by
      rw [htail]
      simp only [List.length_drop]
      omega
    rw [restAfter_eq_filter_sorted (matchesFilter spec) tail htsort pageSize hps hmB]
    have hnps1 : n + pageSize - 1 <
        (it.keys.filter (matchesFilter spec)).length := by omega
    have hlk2 : (tail.filter (matchesFilter spec))[pageSize - 1] =
        (it.keys.filter (matchesFilter spec))[n + pageSize - 1] := by
      refine getElem_eq_of_getElem? hmB hnps1 ?_
      rw [htail, getElem?_drop_eq]
      have he : n + (pageSize - 1) = n + pageSize - 1 := by omega
      rw [he]
    have hlenfull : (st.displayedKeys ++
        ((it.keys.filter (matchesFilter spec)).drop n).take pageSize).length =
        n + pageSize := by
      rw [hdisp, List.length_take]
      omega
    constructor
    · intro h
      refine ⟨hlenfull, ?_⟩
      have hne : tail.filter
          (fun x => ltB ((tail.filter (matchesFilter spec))[pageSize - 1]) x) ≠
            [] := by
        intro hnil
        rw [hnil] at h
        simp at h
      obtain ⟨x, hx⟩ := List.exists_mem_of_ne_nil _ hne
      have hx2 := List.mem_filter.mp hx
      have hx3 : ltB ((it.keys.filter
          (matchesFilter spec))[n + pageSize - 1]) x = true := by
        rw [← hlk2]
        exact hx2.2
      refine ⟨x, htmem x hx2.1, ?_⟩
      intro d hd
      rw [hdisp] at hd
      rcases mem_take_eq_or_lt _ (hs.filter _) (n + pageSize) (by omega) hge d hd
        with he | hlt2
      · rw [he]
        exact hx3
      · exact ltB_trans hlt2 hx3
    · rintro ⟨-, x, hxkeys, hbeyond2⟩
      have hxtail : x ∈ tail := by
        refine hcomplete x hxkeys ?_
        intro d hd
        exact hbeyond2 d (List.mem_append.mpr (Or.inl hd))
      have hl2 : n + pageSize - 1 <
          ((it.keys.filter (matchesFilter spec)).take (n + pageSize)).length := by
        simp only [List.length_take]
        omega
      have hlkmem : (it.keys.filter (matchesFilter spec))[n + pageSize - 1] ∈
          st.displayedKeys ++
            ((it.keys.filter (matchesFilter spec)).drop n).take pageSize := by
        rw [hdisp]
        have hg : (it.keys.filter (matchesFilter spec))[n + pageSize - 1] =
            ((it.keys.filter (matchesFilter spec)).take
              (n + pageSize))[n + pageSize - 1] := by
          rw [List.getElem_take]
        rw [hg]
        exact List.getElem_mem hl2
      have hlkx := hbeyond2 _ hlkmem
      have hxf : x ∈ tail.filter
          (fun y => ltB ((tail.filter (matchesFilter spec))[pageSize - 1]) y) := by
        refine List.mem_filter.mpr ⟨hxtail, ?_⟩
        rw [hlk2]
        exact hlkx
      cases hc : tail.filter
          (fun y => ltB ((tail.filter (matchesFilter spec))[pageSize - 1]) y) with
      | nil =>
        rw [hc] at hxf
        exact absurd hxf (List.not_mem_nil x)
      | cons a l => simp

/-- C4: after a first-page load or an extend over a sorted store, the
"more available" flag is up exactly when the scan filled its page and the
iterator could step onto some raw store key beyond every displayed key —
with no requirement that the next key match the FilterSpec. Consequently,
under a sparse filter the flag can be up with zero further matches (store
`["aa", "bb"]`, filter `"a"`, page size 1), and the ensuing extend appends
nothing and returns false. -/
theorem C4_more_available_is_raw_probe :
    (∀ (spec : Key) (pageSize : Nat) (it : DbIter),
      it.keys.Pairwise (fun a b => ltB a b = true) → 0 < pageSize →
      ((loadInitialKeys spec pageSize it).hasMoreKeys = true ↔
        (loadInitialKeys spec pageSize it).displayedKeys.length = pageSize ∧
        ∃ x ∈ it.keys, ∀ d ∈ (loadInitialKeys spec pageSize it).displayedKeys,
          ltB d x = true))
    ∧ (∀ (spec : Key) (pageSize : Nat) (it : DbIter) (st : PagerState),
        it.keys.Pairwise (fun a b => ltB a b = true) → 0 < pageSize →
        st.displayedKeys =
          (it.keys.filter (matchesFilter spec)).take st.displayedKeys.length →
        st.hasMoreKeys = true → st.displayedKeys ≠ [] →
        ((loadNextPage spec pageSize it st).1.hasMoreKeys = true ↔
          (loadNextPage spec pageSize it st).1.displayedKeys.length =
            st.displayedKeys.length + pageSize ∧
          ∃ x ∈ it.keys, ∀ d ∈ (loadNextPage spec pageSize it st).1.displayedKeys,
            ltB d x = true))
    ∧ ((loadInitialKeys "a".toList 1
          ⟨["aa".toList, "bb".toList], none⟩).hasMoreKeys = true
        ∧ matchesFilter "a".toList "bb".toList = false
        ∧ loadNextPage "a".toList 1 ⟨["aa".toList, "bb".toList], none⟩
            (loadInitialKeys "a".toList 1 ⟨["aa".toList, "bb".toList], none⟩) =
          ({ displayedKeys := ["aa".toList], hasMoreKeys := false,
              statusMessage := none }, false)) := by
  refine ⟨?_, ?_, by decide, by decide, by decide⟩
  · intro spec pageSize it hs hps
    exact initial_hasMore_iff spec pageSize it hs hps
  · intro spec pageSize it st hs hps hinv1 h1 h2
    exact extend_hasMore_iff spec pageSize it st hs hps hinv1 h1 h2

/-- Witness for C4's first-page clause at a concrete sorted store. -/
theorem C4_more_available_is_raw_probe_witness :
    (loadInitialKeys "a".toList 1
        ⟨["aa".toList, "bb".toList], none⟩).hasMoreKeys = true ↔
      (loadInitialKeys "a".toList 1
          ⟨["aa".toList, "bb".toList], none⟩).displayedKeys.length = 1 ∧
      ∃ x ∈ (⟨["aa".toList, "bb".toList], none⟩ : DbIter).keys,
        ∀ d ∈ (loadInitialKeys "a".toList 1
            ⟨["aa".toList, "bb".toList], none⟩).displayedKeys, ltB d x = true :=
  C4_more_available_is_raw_probe.1 "a".toList 1 ⟨["aa".toList, "bb".toList], none⟩
    (by decide) (by decide)

/-- The renderer maps the empty byte sequence to the empty string: the
`(empty)` marker is not produced by `formatValue` itself. -/
theorem formatValue_nil : formatValue [] = [] := by
  have hjson : jsonValid [] = false := rfl
  simp [formatValue, hjson, mixedContentDisplay, mixedContentAux_nil, flushBinary]

/-- C7 counterexample: exporting a key whose value is empty writes
`Key: k\n\nValue: ` with no `(empty)` marker anywhere in the content —
the marker exists only in the value view, so empty and absent are not
distinguishable in exports, refuting "wherever rendered values appear". -/
theorem C7_counterexample :
    (dumpCurrentKey [(['k'], [])] [['k']] 0).written =
        some ("leveldb_dump/k.txt".toList, "Key: k\n\nValue: ".toList)
    ∧ strContains "Key: k\n\nValue: ".toList "(empty)".toList = false := by
  constructor
  · simp [dumpCurrentKey, dbGet, formatValue_nil]
    decide
  · decide

/-- C7 amended: the value view renders an empty value with an explicit
`(empty)` marker distinct from the empty string, while the render function
used by exports yields the empty string for empty input. -/
theorem C7_amended_empty_marker_in_view (db : List (Key × ByteSeq)) (key : Key)
    (h : dbGet db key = Except.ok []) :
    showKeyValue db key =
        "[white]Key[::-]: ".toList ++ key ++ "\n\n[white]Value[::-]: (empty)".toList
    ∧ formatValue [] = []
    ∧ "(empty)".toList ≠ ([] : List Char) := by
  refine ⟨?_, formatValue_nil, by decide⟩
  simp [showKeyValue, h]

/-- Witness for C7's amended claim at a concrete one-entry store. -/
theorem C7_amended_empty_marker_in_view_witness :
    showKeyValue [(['k'], [])] ['k'] =
        "[white]Key[::-]: ".toList ++ ['k'] ++ "\n\n[white]Value[::-]: (empty)".toList
    ∧ formatValue [] = []
    ∧ "(empty)".toList ≠ ([] : List Char) :=
  C7_amended_empty_marker_in_view [(['k'], [])] ['k'] rfl

/-- C8 counterexample: the printable-ASCII bytes of `{"a":1}` are valid
JSON, so `formatValue` pretty-prints them instead of returning them
unchanged — refuting the claim for the full render function. -/
theorem C8_counterexample :
    (∀ b ∈ strBytes "\x7b\x22a\x22:1\x7d", 0x20 ≤ b ∧ b ≤ 0x7E)
    ∧ strBytes "\x7b\x22a\x22:1\x7d" ≠ []
    ∧ formatValue (strBytes "\x7b\x22a\x22:1\x7d") =
        "\x7b\n  \x22a\x22: 1\n\x7d".toList
    ∧ formatValue (strBytes "\x7b\x22a\x22:1\x7d") ≠
        (strBytes "\x7b\x22a\x22:1\x7d").map (fun b => Char.ofNat b) := by
  have hv : jsonValid (strBytes "\x7b\x22a\x22:1\x7d") = true := by decide
  have hfv : formatValue (strBytes "\x7b\x22a\x22:1\x7d") =
      jsonIndent (strBytes "\x7b\x22a\x22:1\x7d") := by
    simp [formatValue, hv]
  refine ⟨by decide, by decide, ?_, ?_⟩
  · rw [hfv]
    decide
  · rw [hfv]
    decide

/-- C8 amended: the mixed-content renderer returns every non-empty
printable-ASCII byte sequence unchanged (so no `[b64:...]` marker is ever
introduced for such input); the full render function instead pretty-prints
those printable-ASCII inputs that are valid JSON. -/
theorem C8_amended_mixed_ascii_unchanged (value : ByteSeq) (_hne : value ≠ [])
    (hascii : ∀ b ∈ value, 0x20 ≤ b ∧ b ≤ 0x7E) :
    mixedContentDisplay value = value.map (fun b => Char.ofNat b) := by
  suffices h : ∀ v : ByteSeq, (∀ b ∈ v, 0x20 ≤ b ∧ b ≤ 0x7E) →
      mixedContentAux [] v = v.map (fun b => Char.ofNat b) from h value hascii
  intro v
  induction v with
  | nil =>
    intro _
    simp [mixedContentAux_nil, flushBinary]
  | cons b rest ih =>
    intro hall
    obtain ⟨hb1, hb2⟩ := hall b (by simp)
    rw [mixedContentAux_cons]
    have hdec : decodeRune (b :: rest) = (b, 1) := by
      simp only [decodeRune, if_pos (show b < 0x80 by omega)]
    rw [hdec]
    have hb3 : ¬ (b = 0xFFFD) := by omega
    have hctrl : unicodeIsControl b = false := by
      simp only [unicodeIsControl]
      simp only [Bool.or_eq_false_iff]
      refine ⟨⟨⟨?_, ?_⟩, ?_⟩, ?_⟩ <;> simp <;> omega
    simp only [hb3, hctrl]
    simp only [List.take, List.drop, flushBinary, List.isEmpty_nil, if_pos]
    rw [ih (fun x hx => hall x (by simp [hx]))]
    simp [hb3]

/-- Witness for C8's amended claim at a concrete printable-ASCII value. -/
theorem C8_amended_mixed_ascii_unchanged_witness :
    mixedContentDisplay (strBytes "abc") =
      (strBytes "abc").map (fun b => Char.ofNat b) :=
  C8_amended_mixed_ascii_unchanged (strBytes "abc") (by decide) (by decide)

/-- C9 counterexample: the DEL character (U+007F) is a control character,
yet the export keeps it in the file name — `sanitizeRune` only replaces
runes below 0x20 — refuting "every control character is replaced". -/
theorem C9_counterexample :
    (dumpCurrentKey [(['k', Char.ofNat 0x7F], strBytes "1")]
        [['k', Char.ofNat 0x7F]] 0).written =
      some ("leveldb_dump/".toList ++ ['k', Char.ofNat 0x7F] ++ ".txt".toList,
        "Key: ".toList ++ ['k', Char.ofNat 0x7F] ++ "\n\nValue: 1".toList)
    ∧ sanitizeRune (Char.ofNat 0x7F) = Char.ofNat 0x7F
    ∧ Char.ofNat 0x7F ≠ '_' := by
  have hv : jsonValid (strBytes "1") = true := by decide
  have hfv : formatValue (strBytes "1") = jsonIndent (strBytes "1") := by
    simp [formatValue, hv]
  refine ⟨?_, by decide, by decide⟩
  simp [dumpCurrentKey, dbGet, hfv]
  decide

/-- C9 amended: a single-entry export with a valid selection writes to
`leveldb_dump/<key with each rune below 0x20 and each of the nine
forbidden filename characters replaced by an underscore>.txt`; in
particular `/` is replaced by `_`. Control characters at or above 0x20
(such as DEL) are kept. -/
theorem C9_amended_filename_sanitization (db : List (Key × ByteSeq))
    (displayedKeys : List Key) (i : Int) (value : ByteSeq)
    (h0 : 0 ≤ i) (h1 : i < (displayedKeys.length : Int))
    (hget : dbGet db (displayedKeys.getD i.toNat []) = Except.ok value) :
    (dumpCurrentKey db displayedKeys i).written =
      some ("leveldb_dump/".toList ++
          (displayedKeys.getD i.toNat []).map sanitizeRune ++ ".txt".toList,
        "Key: ".toList ++ displayedKeys.getD i.toNat [] ++ "\n\nValue: ".toList ++
          formatValue value)
    ∧ (∀ r : Char, (r.toNat < 32 ∨ r = '/' ∨ r = '\\' ∨ r = ':' ∨ r = '*' ∨
        r = '?' ∨ r = Char.ofNat 0x22 ∨ r = '<' ∨ r = '>' ∨ r = '|') →
        sanitizeRune r = '_')
    ∧ sanitizeRune '/' = '_' := by
  refine ⟨?_, ?_, by decide⟩
  · have hc1 : ¬ (i < 0) := by omega
    have hc2 : ¬ ((displayedKeys.length : Int) ≤ i) := by omega
    have hget2 : dbGet db (displayedKeys[i.toNat]?.getD []) = Except.ok value := by
      simpa using hget
    simp [dumpCurrentKey, hc1, hc2, hget2]
  · intro r hr
    rcases hr with h | h | h | h | h | h | h | h | h | h
    · simp [sanitizeRune, h]
    all_goals (subst h; decide)

/-- Witness for C9's amended claim at a concrete store and key. -/
theorem C9_amended_filename_sanitization_witness :
    (dumpCurrentKey [(['a'], strBytes "1")] [['a']] 0).written =
      some ("leveldb_dump/".toList ++ (([['a']] : List Key).getD (0:Int).toNat []).map
          sanitizeRune ++ ".txt".toList,
        "Key: ".toList ++ ([['a']] : List Key).getD (0:Int).toNat [] ++
          "\n\nValue: ".toList ++ formatValue (strBytes "1"))
    ∧ (∀ r : Char, (r.toNat < 32 ∨ r = '/' ∨ r = '\\' ∨ r = ':' ∨ r = '*' ∨
        r = '?' ∨ r = Char.ofNat 0x22 ∨ r = '<' ∨ r = '>' ∨ r = '|') →
        sanitizeRune r = '_')
    ∧ sanitizeRune '/' = '_' :=
  C9_amended_filename_sanitization [(['a'], strBytes "1")] [['a']] 0 (strBytes "1")
    (by decide) (by decide) rfl

/-- C10: a single-entry export with no valid selection, or whose point
lookup fails, reports an error status and performs no filesystem change —
no directory creation and no file write. -/
theorem C10_failed_export_touches_nothing (db : List (Key × ByteSeq))
    (displayedKeys : List Key) (i : Int) :
    ((i < 0 ∨ (displayedKeys.length : Int) ≤ i) →
      dumpCurrentKey db displayedKeys i =
        { statusMessage := "[red]Invalid selection", dirCreated := false,
          written := none })
    ∧ (∀ e : String, ¬ (i < 0 ∨ (displayedKeys.length : Int) ≤ i) →
        dbGet db (displayedKeys.getD i.toNat []) = Except.error e →
        dumpCurrentKey db displayedKeys i =
          { statusMessage := "[red]Error: " ++ e, dirCreated := false,
            written := none }) := by
  constructor
  · intro h
    rcases h with h | h
    · simp [dumpCurrentKey, h]
    · simp [dumpCurrentKey, h]
  · intro e hnv hget
    rw [not_or] at hnv
    have hget2 : dbGet db (displayedKeys[i.toNat]?.getD []) = Except.error e := by
      simpa using hget
    simp [dumpCurrentKey, hnv.1, hnv.2, hget2]

/-- Witness for C10 at a concrete out-of-range selection and a concrete
failing lookup. -/
theorem C10_failed_export_touches_nothing_witness :
    dumpCurrentKey [] [] 5 =
      { statusMessage := "[red]Invalid selection", dirCreated := false,
        written := none }
    ∧ dumpCurrentKey [] [['k']] 0 =
      { statusMessage := "[red]Error: " ++ "leveldb: not found",
        dirCreated := false, written := none } :=
  ⟨(C10_failed_export_touches_nothing [] [] 5).1 (Or.inr (by decide)),
    (C10_failed_export_touches_nothing [] [['k']] 0).2 "leveldb: not found"
      (by rw [not_or]; constructor <;> simp) rfl⟩
